import Mathlib

/-!
Verification development for parajson.

Shallow embedding of `src/parajson.go` (`readLines`, `decode`, `Decode`).

* Bytes are natural numbers; only equality with the newline byte `'\n'` (10)
  is ever inspected by the program.
* An `io.Reader` is modelled by the finite byte sequence it still has to
  deliver together with the condition that ends it (`io.EOF` or a read error);
  a read never blocks for ever.
* `bufio.Reader.ReadBytes` is modelled from its documented contract.
* A channel is modelled by its buffer (a list, oldest element first), its
  capacity and a `closed` flag. A send is enabled when the channel is open and
  the buffer is not full; a receive when the buffer is not empty; a receive on
  a closed and empty channel ends a `range` loop. Sending on a closed channel
  and closing a channel twice, which panic in Go, are not reachable
  (`sends_find_channel_open`).
* `Decode` starts goroutines; a session is modelled as a transition system
  whose actions are the atomic steps of the coordinator goroutine (which also
  runs `readLines`), of each worker goroutine, and of the consumer of the two
  returned channels. Every interleaving of the goroutines is a schedule.
* The `unmarshaller` and the value factory are fixed for the duration of a
  session and are pure: `unmarshaller line proto` is the populated prototype
  or the error. Logging (`elog`) and the lock around the process-wide
  configuration are left out.
-/

namespace Parajson

/-! ## Input model and `bufio.Reader.ReadBytes` -/

/-- A byte of the input. -/
abbrev Byte := Nat

/-- The newline byte `'\n'`. -/
def nl : Byte := 10

/-- A record: the bytes of one line, as sent on the `lines` channel. -/
abbrev Line := List Byte

/-- State of the `io.Reader` wrapped by `bufio.NewReader`: the bytes not yet
consumed and how the stream ends once they are exhausted (`none`: `io.EOF`,
`some e`: the read error `e`). -/
structure Reader (E : Type) where
  data : List Byte
  fail : Option E
deriving DecidableEq, Repr

/-- The `err` result of `ReadBytes` when it is not `nil`. -/
inductive ReadErr (E : Type) where
  | eof : ReadErr E
  | other (e : E) : ReadErr E
deriving DecidableEq, Repr

/-- Scan for the first occurrence of `delim`: the bytes up to and including it,
and the bytes after it; `none` when `delim` does not occur. -/
def splitDelim (delim : Byte) : List Byte → Option (List Byte × List Byte)
  | [] => none
  | b :: bs =>
    if b = delim then some ([b], bs)
    else
      match splitDelim delim bs with
      | some (l, rest) => some (b :: l, rest)
      | none => none

/-- The call `br.ReadBytes(delim)`: it reads until the first occurrence of
`delim`, returning the bytes up to and including the delimiter; when the
stream ends before a delimiter is found it returns the bytes read so far and
the error that ended the stream. -/
def ReadBytes (delim : Byte) (r : Reader E) : Line × Option (ReadErr E) × Reader E :=
  match splitDelim delim r.data with
  | some (l, rest) => (l, none, { r with data := rest })
  | none =>
    match r.fail with
    | none => (r.data, some ReadErr.eof, { r with data := [] })
    | some e => (r.data, some (ReadErr.other e), { r with data := [] })

/-! ## `readLines` -/

/-- The loop of `readLines`. The channel `lines` is represented by the list of
the lines sent on it so far; `fuel` bounds the number of iterations. -/
def readLinesLoop : Nat → Reader E → List Line → Option (List Line × Option E)
  | 0, _, _ => none
  | fuel + 1, br, lines =>
    match ReadBytes nl br with
    | (_, some ReadErr.eof, _) => some (lines, none)
    | (line, none, br') => readLinesLoop fuel br' (lines ++ [line])
    | (_, some (ReadErr.other e), _) => some (lines, some e)

/-- The function `readLines(r, lines)` run on its own, every send on `lines`
completing: the lines sent, in order, and the returned error (`none` is
`nil`). Every iteration but the last consumes at least one byte, so
`data.length + 1` iterations always suffice (`readLines_eq`). -/
def readLines (r : Reader E) : Option (List Line × Option E) :=
  readLinesLoop (r.data.length + 1) r []

/-- The complete (newline-terminated) lines of a byte sequence, cut by
repeated `splitDelim`; at most `fuel` of them. -/
def recordsFuel : Nat → List Byte → List Line
  | 0, _ => []
  | fuel + 1, d =>
    match splitDelim nl d with
    | some (l, rest) => l :: recordsFuel fuel rest
    | none => []

/-- The complete lines of a byte sequence. -/
def recordsOf (d : List Byte) : List Line := recordsFuel d.length d

/-- The input truncated just after its last newline (empty when it has none). -/
def truncateAfterLastNewline (d : List Byte) : List Byte :=
  (d.reverse.dropWhile (fun b => decide (b ≠ nl))).reverse

/-! ## `decode` -/

/-- One pass through the body of the loop of `decode` up to the error test:
`proto := protofactory(); err := unmarshaller(line, proto)`. The result is the
populated prototype, or the error. -/
def decodeLine (protofactory : Unit → V) (unmarshaller : Line → V → Except E V)
    (line : Line) : Except E V :=
  unmarshaller line (protofactory ())

/-- Outcome of a sequential run of `decode`. -/
structure DecodeRun (V E : Type) where
  /-- values sent on `out`, oldest first -/
  out : List V
  /-- number of calls of `protofactory` -/
  calls : Nat
  /-- the returned error (`none` is `nil`) -/
  err : Option E
  /-- lines offered by the channel that this call never received -/
  rest : List Line
deriving DecidableEq, Repr

/-- The function `decode(lines, out, protofactory)` run on its own: `lines` is
the sequence that `range lines` offers to this worker until the channel is
closed. -/
def decode (protofactory : Unit → V) (unmarshaller : Line → V → Except E V) :
    List Line → List V → Nat → DecodeRun V E
  | [], out, calls => { out := out, calls := calls, err := none, rest := [] }
  | line :: rest, out, calls =>
    match decodeLine protofactory unmarshaller line with
    | Except.error e => { out := out, calls := calls + 1, err := some e, rest := rest }
    | Except.ok v => decode protofactory unmarshaller rest (out ++ [v]) (calls + 1)

/-- Outcome of one worker goroutine of `Decode` run on its own. -/
structure WorkerRun (V E : Type) where
  out : List V
  errc : List E
  calls : Nat
  rest : List Line
deriving DecidableEq, Repr

/-- The body of a worker goroutine: `err := decode(...)`, then
`if err != nil { errc <- err; return }`. -/
def workerRun (protofactory : Unit → V) (unmarshaller : Line → V → Except E V)
    (lines : List Line) : WorkerRun V E :=
  let d := decode protofactory unmarshaller lines [] 0
  match d.err with
  | some e => { out := d.out, errc := [e], calls := d.calls, rest := d.rest }
  | none => { out := d.out, errc := [], calls := d.calls, rest := d.rest }

/-- The value decoded from a line, when the decode function accepts it. -/
def okOf (protofactory : Unit → V) (unmarshaller : Line → V → Except E V)
    (line : Line) : Option V :=
  match decodeLine protofactory unmarshaller line with
  | Except.ok v => some v
  | Except.error _ => none

/-- The error of a line, when the decode function rejects it. -/
def errOf (protofactory : Unit → V) (unmarshaller : Line → V → Except E V)
    (line : Line) : Option E :=
  match decodeLine protofactory unmarshaller line with
  | Except.ok _ => none
  | Except.error e => some e

/-! ## `Decode`: the session as a transition system -/

/-- Parameters of a session: the worker count `n`, the value factory and the
process-wide `unmarshaller`. -/
structure Config (V E : Type) where
  n : Nat
  protofactory : Unit → V
  unmarshaller : Line → V → Except E V

/-- Program points of the goroutine started by `Decode` (it spawns the
workers, runs `readLines` itself, then closes the channels). -/
inductive CoordPc (E : Type) where
  /-- at the head of `for i := 0; i < n; i++` with the given `i` -/
  | spawn (i : Nat) : CoordPc E
  /-- in `readLines`, about to call `br.ReadBytes` -/
  | read : CoordPc E
  /-- in `readLines`, at `lines <- line` -/
  | sendLine (line : Line) : CoordPc E
  /-- after `readLines` returned `err != nil`; at `errc <- err` -/
  | sendErr (e : E) : CoordPc E
  /-- at `close(lines)` -/
  | closeLines : CoordPc E
  /-- at `wg.Wait()` -/
  | wait : CoordPc E
  /-- at `close(out)` -/
  | closeOut : CoordPc E
  /-- at `close(errc)` -/
  | closeErrc : CoordPc E
  /-- the goroutine has returned -/
  | done : CoordPc E
deriving DecidableEq, Repr

/-- Program points of a worker goroutine. -/
inductive WorkerPc (V E : Type) where
  /-- in `decode`, at `for line := range lines` -/
  | recv : WorkerPc V E
  /-- in `decode`, at `out <- proto` -/
  | sendOut (v : V) : WorkerPc V E
  /-- after `decode` returned `err != nil`; at `errc <- err` -/
  | sendErr (e : E) : WorkerPc V E
  /-- returning; the deferred `w.Done()` is still to run -/
  | exit : WorkerPc V E
  /-- the goroutine has returned -/
  | done : WorkerPc V E
deriving DecidableEq, Repr

/-- State of one `Decode` session, together with what the consumer of the two
returned channels has received so far. -/
structure Session (V E : Type) where
  /-- the reader `r` -/
  r : Reader E
  coord : CoordPc E
  workers : List (WorkerPc V E)
  /-- counter of the `sync.WaitGroup` -/
  wg : Nat
  /-- buffer of `lines` (capacity `n*10`) -/
  lines : List Line
  linesClosed : Bool
  /-- buffer of `out` (capacity `n*10`) -/
  out : List V
  outClosed : Bool
  /-- buffer of `errc` (capacity `n+1`) -/
  errc : List E
  errcClosed : Bool
  /-- values the consumer has received from `out`, oldest first -/
  gotVals : List V
  /-- errors the consumer has received from `errc`, oldest first -/
  gotErrs : List E
deriving DecidableEq, Repr

/-- The atomic actions of a session. -/
inductive Action where
  /-- next step of the coordinator goroutine -/
  | coord : Action
  /-- next step of worker `i` -/
  | worker (i : Nat) : Action
  /-- the consumer receives from `out` -/
  | recvOut : Action
  /-- the consumer receives from `errc` -/
  | recvErr : Action
deriving DecidableEq, Repr

/-- The function `Decode(r, n, protofactory)`: it makes the three channels,
starts the coordinator goroutine and returns at once; the result is the
session it has started. The goroutines read `n`, `protofactory` and the
`unmarshaller` from the `Config` of the session. -/
def Decode (r : Reader E) : Session V E :=
  { r := r, coord := CoordPc.spawn 0, workers := [], wg := 0,
    lines := [], linesClosed := false, out := [], outClosed := false,
    errc := [], errcClosed := false, gotVals := [], gotErrs := [] }

/-- One step of the coordinator goroutine; `none` when it is blocked or has
returned. A send is enabled when the channel is open and its buffer is not
full (with `n = 0` the channels `lines` and `out` are unbuffered, and there is
no worker to receive from `lines`). -/
def stepCoord (c : Config V E) (s : Session V E) : Option (Session V E) :=
  match s.coord with
  | CoordPc.spawn i =>
    if i < c.n then
      some { s with workers := s.workers ++ [WorkerPc.recv], wg := s.wg + 1,
                    coord := CoordPc.spawn (i + 1) }
    else some { s with coord := CoordPc.read }
  | CoordPc.read =>
    match ReadBytes nl s.r with
    | (_, some ReadErr.eof, r') => some { s with r := r', coord := CoordPc.closeLines }
    | (line, none, r') => some { s with r := r', coord := CoordPc.sendLine line }
    | (_, some (ReadErr.other e), r') => some { s with r := r', coord := CoordPc.sendErr e }
  | CoordPc.sendLine line =>
    if s.linesClosed = false ∧ s.lines.length < c.n * 10 then
      some { s with lines := s.lines ++ [line], coord := CoordPc.read }
    else none
  | CoordPc.sendErr e =>
    if s.errcClosed = false ∧ s.errc.length < c.n + 1 then
      some { s with errc := s.errc ++ [e], coord := CoordPc.closeLines }
    else none
  | CoordPc.closeLines => some { s with linesClosed := true, coord := CoordPc.wait }
  | CoordPc.wait => if s.wg = 0 then some { s with coord := CoordPc.closeOut } else none
  | CoordPc.closeOut => some { s with outClosed := true, coord := CoordPc.closeErrc }
  | CoordPc.closeErrc => some { s with errcClosed := true, coord := CoordPc.done }
  | CoordPc.done => none

/-- One step of worker `i`; `none` when it is blocked, has returned or does
not exist. Receiving a line and decoding it (`protofactory`, `unmarshaller`
and the test of `err`) form one step, since they involve no shared state but
the dequeue. -/
def stepWorker (c : Config V E) (i : Nat) (s : Session V E) : Option (Session V E) :=
  match s.workers[i]? with
  | none => none
  | some WorkerPc.recv =>
    match s.lines with
    | line :: rest =>
      match decodeLine c.protofactory c.unmarshaller line with
      | Except.error e =>
        some { s with lines := rest, workers := s.workers.set i (WorkerPc.sendErr e) }
      | Except.ok v =>
        some { s with lines := rest, workers := s.workers.set i (WorkerPc.sendOut v) }
    | [] =>
      if s.linesClosed = true then some { s with workers := s.workers.set i WorkerPc.exit }
      else none
  | some (WorkerPc.sendOut v) =>
    if s.outClosed = false ∧ s.out.length < c.n * 10 then
      some { s with out := s.out ++ [v], workers := s.workers.set i WorkerPc.recv }
    else none
  | some (WorkerPc.sendErr e) =>
    if s.errcClosed = false ∧ s.errc.length < c.n + 1 then
      some { s with errc := s.errc ++ [e], workers := s.workers.set i WorkerPc.exit }
    else none
  | some WorkerPc.exit =>
    some { s with wg := s.wg - 1, workers := s.workers.set i WorkerPc.done }
  | some WorkerPc.done => none

/-- One step of the session. -/
def step (c : Config V E) : Action → Session V E → Option (Session V E)
  | Action.coord, s => stepCoord c s
  | Action.worker i, s => stepWorker c i s
  | Action.recvOut, s =>
    match s.out with
    | v :: rest => some { s with out := rest, gotVals := s.gotVals ++ [v] }
    | [] => none
  | Action.recvErr, s =>
    match s.errc with
    | e :: rest => some { s with errc := rest, gotErrs := s.gotErrs ++ [e] }
    | [] => none

/-- Run a schedule (a sequence of actions) from a state; `none` when one of
its actions is not enabled. -/
def exec (c : Config V E) : List Action → Session V E → Option (Session V E)
  | [], s => some s
  | a :: as, s =>
    match step c a s with
    | some s' => exec c as s'
    | none => none

/-- No action is enabled: the run cannot be extended. -/
def Terminal (c : Config V E) (s : Session V E) : Prop :=
  ∀ a, step c a s = none

/-- Both returned streams have been closed. -/
def Closed (s : Session V E) : Prop :=
  s.outClosed = true ∧ s.errcClosed = true

/-- The transitions of a session, one constructor per atomic statement of the
program; `step` takes exactly these (`step_sound`, `step_complete`). -/
inductive Step (c : Config V E) : Session V E → Session V E → Prop where
  | spawn (s : Session V E) (i : Nat) (hpc : s.coord = CoordPc.spawn i) (hi : i < c.n) :
    Step c s { s with workers := s.workers ++ [WorkerPc.recv], wg := s.wg + 1,
                      coord := CoordPc.spawn (i + 1) }
  | spawnEnd (s : Session V E) (i : Nat) (hpc : s.coord = CoordPc.spawn i) (hi : ¬ i < c.n) :
    Step c s { s with coord := CoordPc.read }
  | readLine (s : Session V E) (l rest : List Byte) (hpc : s.coord = CoordPc.read)
      (hs : splitDelim nl s.r.data = some (l, rest)) :
    Step c s { s with r := { s.r with data := rest }, coord := CoordPc.sendLine l }
  | readEOF (s : Session V E) (hpc : s.coord = CoordPc.read)
      (hs : splitDelim nl s.r.data = none) (hf : s.r.fail = none) :
    Step c s { s with r := { s.r with data := [] }, coord := CoordPc.closeLines }
  | readErr (s : Session V E) (e : E) (hpc : s.coord = CoordPc.read)
      (hs : splitDelim nl s.r.data = none) (hf : s.r.fail = some e) :
    Step c s { s with r := { s.r with data := [] }, coord := CoordPc.sendErr e }
  | sendLine (s : Session V E) (l : Line) (hpc : s.coord = CoordPc.sendLine l)
      (hopen : s.linesClosed = false) (hcap : s.lines.length < c.n * 10) :
    Step c s { s with lines := s.lines ++ [l], coord := CoordPc.read }
  | sendReadErr (s : Session V E) (e : E) (hpc : s.coord = CoordPc.sendErr e)
      (hopen : s.errcClosed = false) (hcap : s.errc.length < c.n + 1) :
    Step c s { s with errc := s.errc ++ [e], coord := CoordPc.closeLines }
  | closeLines (s : Session V E) (hpc : s.coord = CoordPc.closeLines) :
    Step c s { s with linesClosed := true, coord := CoordPc.wait }
  | wait (s : Session V E) (hpc : s.coord = CoordPc.wait) (hwg : s.wg = 0) :
    Step c s { s with coord := CoordPc.closeOut }
  | closeOut (s : Session V E) (hpc : s.coord = CoordPc.closeOut) :
    Step c s { s with outClosed := true, coord := CoordPc.closeErrc }
  | closeErrc (s : Session V E) (hpc : s.coord = CoordPc.closeErrc) :
    Step c s { s with errcClosed := true, coord := CoordPc.done }
  | recvOk (s : Session V E) (i : Nat) (line : Line) (rest : List Line) (v : V)
      (hw : s.workers[i]? = some WorkerPc.recv) (hl : s.lines = line :: rest)
      (hd : decodeLine c.protofactory c.unmarshaller line = Except.ok v) :
    Step c s { s with lines := rest, workers := s.workers.set i (WorkerPc.sendOut v) }
  | recvBad (s : Session V E) (i : Nat) (line : Line) (rest : List Line) (e : E)
      (hw : s.workers[i]? = some WorkerPc.recv) (hl : s.lines = line :: rest)
      (hd : decodeLine c.protofactory c.unmarshaller line = Except.error e) :
    Step c s { s with lines := rest, workers := s.workers.set i (WorkerPc.sendErr e) }
  | recvClosed (s : Session V E) (i : Nat)
      (hw : s.workers[i]? = some WorkerPc.recv) (hl : s.lines = [])
      (hclosed : s.linesClosed = true) :
    Step c s { s with workers := s.workers.set i WorkerPc.exit }
  | sendOut (s : Session V E) (i : Nat) (v : V)
      (hw : s.workers[i]? = some (WorkerPc.sendOut v))
      (hopen : s.outClosed = false) (hcap : s.out.length < c.n * 10) :
    Step c s { s with out := s.out ++ [v], workers := s.workers.set i WorkerPc.recv }
  | sendErr (s : Session V E) (i : Nat) (e : E)
      (hw : s.workers[i]? = some (WorkerPc.sendErr e))
      (hopen : s.errcClosed = false) (hcap : s.errc.length < c.n + 1) :
    Step c s { s with errc := s.errc ++ [e], workers := s.workers.set i WorkerPc.exit }
  | workerDone (s : Session V E) (i : Nat) (hw : s.workers[i]? = some WorkerPc.exit) :
    Step c s { s with wg := s.wg - 1, workers := s.workers.set i WorkerPc.done }
  | consumeOut (s : Session V E) (v : V) (rest : List V) (ho : s.out = v :: rest) :
    Step c s { s with out := rest, gotVals := s.gotVals ++ [v] }
  | consumeErr (s : Session V E) (e : E) (rest : List E) (he : s.errc = e :: rest) :
    Step c s { s with errc := rest, gotErrs := s.gotErrs ++ [e] }

/-- Rank of a program point of the coordinator in the termination measure. -/
def coordRank (n : Nat) : CoordPc E → Nat
  | CoordPc.spawn i => 12 + 3 * (n - i)
  | CoordPc.sendLine _ => 11
  | CoordPc.read => 7
  | CoordPc.sendErr _ => 6
  | CoordPc.closeLines => 4
  | CoordPc.wait => 3
  | CoordPc.closeOut => 2
  | CoordPc.closeErrc => 1
  | CoordPc.done => 0

/-- Rank of a program point of a worker in the termination measure. -/
def workerRank : WorkerPc V E → Nat
  | WorkerPc.sendOut _ => 4
  | WorkerPc.sendErr _ => 3
  | WorkerPc.recv => 2
  | WorkerPc.exit => 1
  | WorkerPc.done => 0

/-- Termination measure of a session: it decreases with every step. -/
def potential (c : Config V E) (s : Session V E) : Nat :=
  coordRank c.n s.coord + (s.workers.map workerRank).sum + 3 * s.lines.length
    + 5 * s.r.data.length + s.out.length + s.errc.length

/-- Total number of errors ever sent on `errc`: those still buffered and those
the consumer has received. -/
def errorsSent (s : Session V E) : Nat :=
  s.errc.length + s.gotErrs.length

/-- Total number of values ever sent on `out`. -/
def valuesSent (s : Session V E) : Nat :=
  s.out.length + s.gotVals.length

/-! ## Conserved quantities -/

/-- The value a worker is about to send on `out`. -/
def heldVal : WorkerPc V E → List V
  | WorkerPc.sendOut v => [v]
  | _ => []

/-- The error a worker is about to send on `errc`. -/
def heldErr : WorkerPc V E → List E
  | WorkerPc.sendErr e => [e]
  | _ => []

/-- The error the coordinator is about to send on `errc`. -/
def coordErr : CoordPc E → List E
  | CoordPc.sendErr e => [e]
  | _ => []

/-- The line the coordinator is about to send on `lines`. -/
def coordLine : CoordPc E → List Line
  | CoordPc.sendLine l => [l]
  | _ => []

/-- Whether `readLines` has returned. -/
def readDone : CoordPc E → Bool
  | CoordPc.spawn _ => false
  | CoordPc.read => false
  | CoordPc.sendLine _ => false
  | _ => true

/-- The lines `readLines` has still to send: the one in hand and the complete
lines of the unread input. -/
def pendingLines (s : Session V E) : List Line :=
  coordLine s.coord ++ recordsOf s.r.data

/-- The read error `readLines` has still to return. -/
def pendingReadErr (s : Session V E) : List E :=
  if readDone s.coord = true then [] else s.r.fail.toList

/-- The values of the lines the decode function accepts, in order. -/
def okVals (c : Config V E) (ls : List Line) : List V :=
  ls.filterMap (okOf c.protofactory c.unmarshaller)

/-- The errors of the lines the decode function rejects, in order. -/
def errVals (c : Config V E) (ls : List Line) : List E :=
  ls.filterMap (errOf c.protofactory c.unmarshaller)

/-- Values held by the workers, as a multiset. -/
def workersVals (ws : List (WorkerPc V E)) : Multiset V :=
  (ws.map (fun w => (Multiset.ofList (heldVal w)))).sum

/-- Errors held by the workers, as a multiset. -/
def workersErrs (ws : List (WorkerPc V E)) : Multiset E :=
  (ws.map (fun w => (Multiset.ofList (heldErr w)))).sum

/-- Every value delivered, in flight, or still to be decoded from a line that
is queued or unread: a quantity that no step changes. -/
def valContent (c : Config V E) (s : Session V E) : Multiset V :=
  Multiset.ofList s.gotVals + Multiset.ofList s.out + workersVals s.workers
    + Multiset.ofList (okVals c s.lines) + Multiset.ofList (okVals c (pendingLines s))

/-- Every error delivered, in flight, or still to come from a line that is
queued or unread or from the end of the input: a quantity that no step
changes. -/
def errContent (c : Config V E) (s : Session V E) : Multiset E :=
  Multiset.ofList s.gotErrs + Multiset.ofList s.errc + workersErrs s.workers
    + Multiset.ofList (coordErr s.coord) + Multiset.ofList (errVals c s.lines)
    + Multiset.ofList (errVals c (pendingLines s)) + Multiset.ofList (pendingReadErr s)

/-! ## Invariants -/

/-- A worker whose `w.Done()` has not run yet counts for one in the WaitGroup. -/
@[simp] def activeW : WorkerPc V E → Nat
  | WorkerPc.done => 0
  | _ => 1

/-- A worker that may still send an error. -/
@[simp] def errBudget : WorkerPc V E → Nat
  | WorkerPc.recv => 1
  | WorkerPc.sendOut _ => 1
  | WorkerPc.sendErr _ => 1
  | _ => 0

/-- The coordinator may still send an error. -/
@[simp] def coordBudget : CoordPc E → Nat
  | CoordPc.spawn _ => 1
  | CoordPc.read => 1
  | CoordPc.sendLine _ => 1
  | CoordPc.sendErr _ => 1
  | _ => 0

/-- A worker that has left the loop of `decode`. -/
@[simp] def leftLoop : WorkerPc V E → Nat
  | WorkerPc.recv => 0
  | WorkerPc.sendOut _ => 0
  | _ => 1

/-- Program points after `close(lines)`. -/
@[simp] def linesClosedAt : CoordPc E → Bool
  | CoordPc.wait => true
  | CoordPc.closeOut => true
  | CoordPc.closeErrc => true
  | CoordPc.done => true
  | _ => false

/-- Program points after `wg.Wait()`. -/
@[simp] def waitPassed : CoordPc E → Bool
  | CoordPc.closeOut => true
  | CoordPc.closeErrc => true
  | CoordPc.done => true
  | _ => false

/-- Program points after `close(out)`. -/
@[simp] def outClosedAt : CoordPc E → Bool
  | CoordPc.closeErrc => true
  | CoordPc.done => true
  | _ => false

/-- Program points after `close(errc)`. -/
@[simp] def errcClosedAt : CoordPc E → Bool
  | CoordPc.done => true
  | _ => false

/-- Number of workers still to be started. -/
@[simp] def spawnLeft (n : Nat) : CoordPc E → Nat
  | CoordPc.spawn i => n - i
  | _ => 0

/-- The invariant of a session. -/
structure Inv (c : Config V E) (s : Session V E) : Prop where
  spawned : s.workers.length + spawnLeft c.n s.coord = c.n
  spawnIdx : ∀ i, s.coord = CoordPc.spawn i → s.workers.length = i
  wgCount : s.wg = (s.workers.map activeW).sum
  linesFlag : s.linesClosed = linesClosedAt s.coord
  outFlag : s.outClosed = outClosedAt s.coord
  errcFlag : s.errcClosed = errcClosedAt s.coord
  waited : waitPassed s.coord = true → s.wg = 0
  budget : errorsSent s + (s.workers.map errBudget).sum + coordBudget s.coord
    ≤ s.workers.length + 1
  readEnd : readDone s.coord = true → s.r.data = []
  readErrHeld : ∀ e, s.coord = CoordPc.sendErr e → s.r.fail = some e

/-- Every worker that has left the loop of `decode` has dequeued a rejected
line (of which the input has at most `F`), unless `lines` is closed and
drained. -/
def LeftBound (c : Config V E) (F : Nat) (s : Session V E) : Prop :=
  (s.workers.map leftLoop).sum + (errVals c (pendingLines s)).length
      + (errVals c s.lines).length ≤ F
    ∨ (s.linesClosed = true ∧ s.lines = [])

/-- The buffer of `lines` holds at most its capacity, and each of the `F`
rejected lines of the input is still unread, still queued, or has been
dequeued by a worker that has left the loop of `decode` since. -/
def Dequeued (c : Config V E) (F : Nat) (s : Session V E) : Prop :=
  s.lines.length ≤ c.n * 10
    ∧ F ≤ (s.workers.map leftLoop).sum + (errVals c (pendingLines s)).length
        + (errVals c s.lines).length

/-- Everything that holds in all reachable states of the session on reader `r`. -/
structure Good (c : Config V E) (r : Reader E) (s : Session V E) : Prop where
  inv : Inv c s
  left : LeftBound c (errVals c (recordsOf r.data)).length s
  vals : valContent c s = Multiset.ofList (okVals c (recordsOf r.data))
  errs : errContent c s
    = Multiset.ofList (errVals c (recordsOf r.data)) + Multiset.ofList r.fail.toList
  fail : s.r.fail = r.fail

/-! ## Auxiliary notions for the statements -/

/-- Whether the decode function rejects a line. -/
def rejects (c : Config V E) (l : Line) : Bool :=
  match decodeLine c.protofactory c.unmarshaller l with
  | Except.ok _ => false
  | Except.error _ => true

/-- Number of complete lines of the input that the decode function rejects. -/
def rejectedCount (c : Config V E) (data : List Byte) : Nat :=
  (recordsOf data).countP (rejects c)

/-- The actions that can be enabled in a state: the coordinator, the consumer,
and each worker that exists. -/
def actionsOf (s : Session V E) : List Action :=
  Action.coord :: Action.recvOut :: Action.recvErr
    :: (List.range s.workers.length).map Action.worker

/-- Decidable form of `Terminal`. -/
def terminalCheck (c : Config V E) (s : Session V E) : Bool :=
  (actionsOf s).all (fun a => (step c a s).isNone)

/-- The session with its unread input replaced. -/
def withData (s : Session V E) (d : List Byte) : Session V E :=
  { s with r := { s.r with data := d } }

/-- The session in which `frag` follows the unread input, as long as
`readLines` is running. -/
def extendInput (frag : List Byte) (s : Session V E) : Session V E :=
  withData s (if readDone s.coord = true then s.r.data else s.r.data ++ frag)

/-- The session without its unread input: the channels, the program points and
what the consumer has received. -/
def eraseInput (s : Session V E) : Session V E :=
  withData s []

/-! ## Concrete sessions used as examples -/

/-- A decode function for examples: it rejects the lines that start with the
byte 0 (error 7) and decodes any other line to its length. -/
def lengthUnmarshal (line : Line) (_ : Nat) : Except Nat Nat :=
  if line.head? = some 0 then Except.error 7 else Except.ok line.length

/-- Example configuration with `n` workers and `lengthUnmarshal`. -/
def exampleCfg (n : Nat) : Config Nat Nat :=
  { n := n, protofactory := fun _ => 0, unmarshaller := lengthUnmarshal }

/-- The input of the concrete scenario: the four lines `{"a":1}`, `{"a":2}`,
`{bad`, `{"a":3}`, each followed by a newline. -/
def scenarioInput : List Byte :=
  [123, 34, 97, 34, 58, 49, 125, 10,
   123, 34, 97, 34, 58, 50, 125, 10,
   123, 98, 97, 100, 10,
   123, 34, 97, 34, 58, 51, 125, 10]

/-- The decode function of the concrete scenario: `{"a":d}` decodes to the
value `d` (standing for the object `{a:d}`) for `d` = 1, 2, 3, and any other
line, `{bad` in particular, is rejected. -/
def scenarioUnmarshal (line : Line) (_ : Nat) : Except Nat Nat :=
  if line = [123, 34, 97, 34, 58, 49, 125, 10] then Except.ok 1
  else if line = [123, 34, 97, 34, 58, 50, 125, 10] then Except.ok 2
  else if line = [123, 34, 97, 34, 58, 51, 125, 10] then Except.ok 3
  else Except.error 0

/-- The concrete scenario: two workers. -/
def scenarioCfg : Config Nat Nat :=
  { n := 2, protofactory := fun _ => 0, unmarshaller := scenarioUnmarshal }

/-- The final state of a session in which the coordinator and `n` workers
have returned and the consumer has received everything. -/
def finalState (n : Nat) (fail : Option Nat) (lines : List Line) (gotVals gotErrs : List Nat) :
    Session Nat Nat :=
  { r := { data := [], fail := fail }, coord := CoordPc.done,
    workers := List.replicate n WorkerPc.done, wg := 0,
    lines := lines, linesClosed := true, out := [], outClosed := true,
    errc := [], errcClosed := true, gotVals := gotVals, gotErrs := gotErrs }

/-- A run of the scenario: the coordinator queues the four lines and closes
`lines`; worker 0 decodes the first line, worker 1 the second, worker 0 fails
on the third, worker 1 decodes the fourth. -/
def scenarioSchedule : List Action :=
  List.replicate 13 Action.coord
    ++ [Action.worker 0, Action.worker 0, Action.worker 1, Action.worker 1,
        Action.worker 0, Action.worker 0, Action.worker 0,
        Action.worker 1, Action.worker 1, Action.worker 1, Action.worker 1,
        Action.coord, Action.coord, Action.coord,
        Action.recvOut, Action.recvOut, Action.recvOut, Action.recvErr]

/-- Another run of the scenario, in which the second value overtakes the
first. -/
def scenarioSchedule2 : List Action :=
  List.replicate 13 Action.coord
    ++ [Action.worker 1, Action.worker 0, Action.worker 0, Action.worker 1,
        Action.worker 0, Action.worker 1, Action.worker 1,
        Action.worker 0, Action.worker 0, Action.worker 1, Action.worker 1,
        Action.coord, Action.coord, Action.coord,
        Action.recvOut, Action.recvOut, Action.recvOut, Action.recvErr]

/-- A complete run of one worker on the one-line input `a\n`. -/
def runOneLine : List Action :=
  [Action.coord, Action.coord, Action.coord, Action.coord, Action.worker 0, Action.worker 0,
   Action.recvOut, Action.coord, Action.coord, Action.worker 0, Action.worker 0,
   Action.coord, Action.coord, Action.coord]

/-- A complete run of two workers on the input `\0\n`, `a\n`: worker 0 fails
on the first line, worker 1 decodes the second. -/
def runOneRejected : List Action :=
  List.replicate 9 Action.coord
    ++ [Action.worker 0, Action.worker 0, Action.worker 0,
        Action.worker 1, Action.worker 1, Action.worker 1, Action.worker 1,
        Action.coord, Action.coord, Action.coord, Action.recvOut, Action.recvErr]

/-- The state of that run after twelve steps: worker 0 has failed and returned,
the coordinator waits, worker 1 has still to dequeue the second line. -/
def oneRejectedMidRun : Session Nat Nat :=
  { r := { data := [], fail := none }, coord := CoordPc.wait,
    workers := [WorkerPc.done, WorkerPc.recv], wg := 1,
    lines := [[97, 10]], linesClosed := true, out := [], outClosed := false,
    errc := [7], errcClosed := false, gotVals := [], gotErrs := [] }

/-- Three lines of which `lengthUnmarshal` rejects the first only. -/
def firstRejectedInput : List Byte := [0, 10, 97, 10, 98, 10]

/-- A run of one worker on `firstRejectedInput`: the worker fails on the
first line and returns; the coordinator queues the other two lines, closes
`lines`, and closes both streams. -/
def runFirstRejected : List Action :=
  [Action.coord, Action.coord, Action.coord, Action.coord,
   Action.worker 0, Action.worker 0, Action.worker 0]
    ++ List.replicate 9 Action.coord ++ [Action.recvErr]

/-- Twelve lines, all rejected by `lengthUnmarshal`. -/
def allRejectedInput : List Byte := (List.replicate 12 [0, 10]).flatten

/-- A run of one worker on `allRejectedInput`: the worker fails on the first
line and returns, the consumer receives the error, the coordinator fills the
buffer of `lines` with ten lines and reaches `lines <- line` with the twelfth. -/
def runAllRejected : List Action :=
  [Action.coord, Action.coord, Action.coord, Action.coord,
   Action.worker 0, Action.worker 0, Action.worker 0, Action.recvErr]
    ++ List.replicate 21 Action.coord

/-- The state reached by `runAllRejected`. -/
def blockedState : Session Nat Nat :=
  { r := { data := [], fail := none }, coord := CoordPc.sendLine [0, 10],
    workers := [WorkerPc.done], wg := 0,
    lines := List.replicate 10 [0, 10], linesClosed := false, out := [], outClosed := false,
    errc := [], errcClosed := false, gotVals := [], gotErrs := [7] }

/-- The state reached by `runAllRejected` when the input ends with read error
9 instead of end-of-input. -/
def blockedBeforeReadError : Session Nat Nat :=
  { r := { data := [], fail := some 9 }, coord := CoordPc.sendLine [0, 10],
    workers := [WorkerPc.done], wg := 0,
    lines := List.replicate 10 [0, 10], linesClosed := false, out := [], outClosed := false,
    errc := [], errcClosed := false, gotVals := [], gotErrs := [7] }

/-- A complete run of one worker on the input `a\n`, `b` that ends with read
error 9. -/
def runReadFailure : List Action :=
  [Action.coord, Action.coord, Action.coord, Action.coord, Action.worker 0, Action.worker 0,
   Action.recvOut, Action.coord, Action.coord, Action.coord, Action.worker 0, Action.worker 0,
   Action.coord, Action.coord, Action.coord, Action.recvErr]

/-- The start of a run on the input `\0\n`, `b` ending with read error 9, up
to the point where the worker is about to send its error. -/
def runToSendErr : List Action :=
  [Action.coord, Action.coord, Action.coord, Action.coord, Action.worker 0]

/-- The state reached by `runToSendErr`. -/
def sendErrState : Session Nat Nat :=
  { r := { data := [98], fail := some 9 }, coord := CoordPc.read,
    workers := [WorkerPc.sendErr 7], wg := 1,
    lines := [], linesClosed := false, out := [], outClosed := false,
    errc := [], errcClosed := false, gotVals := [], gotErrs := [] }

/-- The state after the worker of `sendErrState` has sent its error. -/
def sentErrState : Session Nat Nat :=
  { r := { data := [98], fail := some 9 }, coord := CoordPc.read,
    workers := [WorkerPc.exit], wg := 1,
    lines := [], linesClosed := false, out := [], outClosed := false,
    errc := [7], errcClosed := false, gotVals := [], gotErrs := [] }

/-! ## Lemmas on line splitting -/

theorem splitDelim_none_iff (d : Byte) (x : List Byte) :
    splitDelim d x = none ↔ d ∉ x := by
  induction x with
  | nil => simp [splitDelim]
  | cons b bs ih =>
    by_cases hb : b = d
    · simp [splitDelim, hb]
    · have hb' : ¬ d = b := fun h => hb h.symm
      cases hs : splitDelim d bs with
      | none => simp [splitDelim, hb, hb', hs, ih.mp hs]
      | some p =>
        have : ¬ d ∉ bs := fun h => by simp [ih.mpr h] at hs
        simp [splitDelim, hb, hs] at this ⊢
        exact fun _ => this

theorem splitDelim_some (d : Byte) (x l rest : List Byte)
    (h : splitDelim d x = some (l, rest)) :
    ∃ body, l = body ++ [d] ∧ d ∉ body ∧ x = l ++ rest := by
  induction x generalizing l rest with
  | nil => simp [splitDelim] at h
  | cons b bs ih =>
    by_cases hb : b = d
    · simp [splitDelim, hb] at h
      exact ⟨[], by simp [h.1.symm], by simp, by simp [h.1.symm, h.2, hb]⟩
    · cases hs : splitDelim d bs with
      | none => simp [splitDelim, hb, hs] at h
      | some p =>
        obtain ⟨l', rest'⟩ := p
        simp [splitDelim, hb, hs] at h
        obtain ⟨body, h1, h2, h3⟩ := ih l' rest' hs
        refine ⟨b :: body, ?_, ?_, ?_⟩
        · simp [← h.1, h1]
        · simp [h2]; exact fun e => hb e.symm
        · simp [← h.1, ← h.2, h3]

theorem splitDelim_append (d : Byte) (x l rest y : List Byte)
    (h : splitDelim d x = some (l, rest)) :
    splitDelim d (x ++ y) = some (l, rest ++ y) := by
  induction x generalizing l rest with
  | nil => simp [splitDelim] at h
  | cons b bs ih =>
    by_cases hb : b = d
    · simp [splitDelim, hb] at h ⊢
      simp [h.1, h.2]
    · cases hs : splitDelim d bs with
      | none => simp [splitDelim, hb, hs] at h
      | some p =>
        obtain ⟨l', rest'⟩ := p
        simp [splitDelim, hb, hs] at h
        simp [splitDelim, hb, ih l' rest' hs, h.1, h.2]

theorem splitDelim_line_append (d : Byte) (body y : List Byte) (h : d ∉ body) :
    splitDelim d (body ++ d :: y) = some (body ++ [d], y) := by
  induction body with
  | nil => simp [splitDelim]
  | cons b bs ih =>
    have hb : ¬ b = d := fun e => h (by simp [e])
    have hbs : d ∉ bs := fun e => h (by simp [e])
    simp [splitDelim, hb, ih hbs]

theorem recordsFuel_congr (f1 f2 : Nat) (x : List Byte) (h1 : x.length ≤ f1)
    (h2 : x.length ≤ f2) : recordsFuel f1 x = recordsFuel f2 x := by
  induction f1 generalizing x f2 with
  | zero =>
    have : x = [] := List.length_eq_zero.mp (Nat.le_zero.mp h1)
    subst this
    cases f2 <;> simp [recordsFuel, splitDelim]
  | succ k ih =>
    cases hs : splitDelim nl x with
    | none => cases f2 <;> simp [recordsFuel, hs]
    | some p =>
      obtain ⟨l, rest⟩ := p
      obtain ⟨body, e1, _, e3⟩ := splitDelim_some nl x l rest hs
      have hlen : rest.length < x.length := by rw [e3, e1]; simp; omega
      cases f2 with
      | zero => omega
      | succ m =>
        simp only [recordsFuel, hs]
        rw [ih m rest (by omega) (by omega)]

theorem recordsFuel_stable (fuel : Nat) (x : List Byte) (h : x.length ≤ fuel) :
    recordsFuel fuel x = recordsOf x :=
  recordsFuel_congr fuel x.length x h (Nat.le_refl _)

theorem recordsOf_cons (x l rest : List Byte) (h : splitDelim nl x = some (l, rest)) :
    recordsOf x = l :: recordsOf rest := by
  obtain ⟨body, h1, _, h3⟩ := splitDelim_some nl x l rest h
  have hlen : rest.length < x.length := by rw [h3, h1]; simp; omega
  cases x with
  | nil => simp [splitDelim] at h
  | cons b bs =>
    simp only [List.length_cons] at hlen
    show recordsFuel (bs.length + 1) (b :: bs) = _
    simp only [recordsFuel, h]
    rw [recordsFuel_stable _ _ (by omega)]

theorem recordsOf_nil_of_none (x : List Byte) (h : splitDelim nl x = none) :
    recordsOf x = [] := by
  cases x with
  | nil => rfl
  | cons b bs =>
    show recordsFuel (bs.length + 1) (b :: bs) = _
    simp [recordsFuel, h]

theorem recordsOf_empty : recordsOf [] = [] := rfl

theorem recordsOf_line_append (body y : List Byte) (h : nl ∉ body) :
    recordsOf (body ++ nl :: y) = (body ++ [nl]) :: recordsOf y :=
  recordsOf_cons _ _ _ (splitDelim_line_append nl body y h)

/-- Induction along the lines of a byte sequence. -/
theorem records_induction {P : List Byte → Prop} (x : List Byte)
    (hnone : ∀ x, nl ∉ x → P x)
    (hcons : ∀ body y, nl ∉ body → P y → P (body ++ nl :: y)) :
    P x := by
  generalize hn : x.length = n
  induction n using Nat.strong_induction_on generalizing x with
  | _ n ih =>
    cases hs : splitDelim nl x with
    | none => exact hnone x ((splitDelim_none_iff nl x).mp hs)
    | some p =>
      obtain ⟨l, rest⟩ := p
      obtain ⟨body, h1, h2, h3⟩ := splitDelim_some nl x l rest hs
      have hx : x = body ++ nl :: rest := by rw [h3, h1]; simp
      have hlen : rest.length < n := by rw [← hn, hx]; simp; omega
      rw [hx]
      exact hcons body rest h2 (ih _ hlen rest rfl)

theorem recordsOf_of_not_mem (x : List Byte) (h : nl ∉ x) : recordsOf x = [] :=
  recordsOf_nil_of_none x ((splitDelim_none_iff nl x).mpr h)

theorem recordsOf_shape (x : List Byte) :
    ∀ r ∈ recordsOf x, ∃ body, r = body ++ [nl] ∧ nl ∉ body := by
  induction x using records_induction with
  | hnone x hx =>
    intro r hr
    simp [recordsOf_of_not_mem x hx] at hr
  | hcons body y hb ih =>
    intro r hr
    rw [recordsOf_line_append body y hb] at hr
    rcases List.mem_cons.mp hr with h | h
    · exact ⟨body, h, hb⟩
    · exact ih r h

theorem recordsOf_length (x : List Byte) : (recordsOf x).length = x.count nl := by
  induction x using records_induction with
  | hnone x hx =>
    simp [recordsOf_of_not_mem x hx, List.count_eq_zero.mpr hx]
  | hcons body y hb ih =>
    rw [recordsOf_line_append body y hb]
    simp [ih, List.count_eq_zero.mpr hb]

theorem truncate_of_not_mem (x : List Byte) (h : nl ∉ x) :
    truncateAfterLastNewline x = [] := by
  unfold truncateAfterLastNewline
  rw [List.reverse_eq_nil_iff, List.dropWhile_eq_nil_iff]
  intro b hb
  have : b ≠ nl := fun e => h (e ▸ List.mem_reverse.mp hb)
  simpa using this

theorem truncate_line_append (a y : List Byte) :
    truncateAfterLastNewline (a ++ nl :: y) = a ++ nl :: truncateAfterLastNewline y := by
  unfold truncateAfterLastNewline
  have e : (a ++ nl :: y).reverse = y.reverse ++ nl :: a.reverse := by simp
  rw [e, List.dropWhile_append]
  split
  · next h =>
    have h' : List.dropWhile (fun b => decide (b ≠ nl)) y.reverse = [] := by
      simpa [List.isEmpty_iff] using h
    rw [h']
    simp [List.dropWhile]
  · simp

theorem truncate_append_frag (x : List Byte) :
    ∃ frag, nl ∉ frag ∧ truncateAfterLastNewline x ++ frag = x := by
  refine ⟨(x.reverse.takeWhile (fun b => decide (b ≠ nl))).reverse, ?_, ?_⟩
  · intro h
    have h1 := List.mem_takeWhile_imp (List.mem_reverse.mp h)
    simp at h1
  · unfold truncateAfterLastNewline
    rw [← List.reverse_append, List.takeWhile_append_dropWhile, List.reverse_reverse]

theorem recordsOf_flatten (x : List Byte) :
    (recordsOf x).flatten = truncateAfterLastNewline x := by
  induction x using records_induction with
  | hnone x hx =>
    simp [recordsOf_of_not_mem x hx, truncate_of_not_mem x hx]
  | hcons body y hb ih =>
    rw [recordsOf_line_append body y hb, truncate_line_append]
    simp [ih]

theorem recordsOf_truncate (x : List Byte) :
    recordsOf (truncateAfterLastNewline x) = recordsOf x := by
  induction x using records_induction with
  | hnone x hx =>
    simp [recordsOf_of_not_mem x hx, truncate_of_not_mem x hx, recordsOf_empty]
  | hcons body y hb ih =>
    rw [truncate_line_append, recordsOf_line_append body y hb,
      recordsOf_line_append body _ hb, ih]

theorem readLinesLoop_eq (fuel : Nat) (x : List Byte) (f : Option E) (acc : List Line)
    (h : x.length < fuel) :
    readLinesLoop fuel (Reader.mk x f) acc = some (acc ++ recordsOf x, f) := by
  induction fuel generalizing x acc with
  | zero => omega
  | succ k ih =>
    cases hs : splitDelim nl x with
    | none =>
      cases f <;> simp [readLinesLoop, ReadBytes, hs, recordsOf_nil_of_none x hs]
    | some p =>
      obtain ⟨l, rest⟩ := p
      obtain ⟨body, e1, _, e3⟩ := splitDelim_some nl x l rest hs
      have hlen : rest.length < x.length := by rw [e3, e1]; simp; omega
      simp only [readLinesLoop, ReadBytes, hs]
      rw [ih rest (acc ++ [l]) (by omega), recordsOf_cons x l rest hs]
      simp

theorem readLines_eq (x : List Byte) (f : Option E) :
    readLines (Reader.mk x f) = some (recordsOf x, f) := by
  unfold readLines
  rw [readLinesLoop_eq _ x f [] (Nat.lt_succ_self _)]
  simp

/-! ## Lemmas on `decode` -/

theorem decode_all_ok (pf : Unit → V) (um : Line → V → Except E V)
    (lines : List Line) (vs out : List V) (calls : Nat)
    (h : List.Forall₂ (fun l v => decodeLine pf um l = Except.ok v) lines vs) :
    decode pf um lines out calls
      = { out := out ++ vs, calls := calls + lines.length, err := none, rest := [] } := by
  induction h generalizing out calls with
  | nil => simp [decode]
  | cons hd _ ih =>
    simp only [decode, hd, ih]
    simp [Nat.add_assoc, Nat.add_comm 1]

theorem decode_first_error (pf : Unit → V) (um : Line → V → Except E V)
    (pre : List Line) (bad : Line) (post : List Line) (vs out : List V) (calls : Nat)
    (e : E) (h : List.Forall₂ (fun l v => decodeLine pf um l = Except.ok v) pre vs)
    (hbad : decodeLine pf um bad = Except.error e) :
    decode pf um (pre ++ bad :: post) out calls
      = { out := out ++ vs, calls := calls + pre.length + 1, err := some e, rest := post } := by
  induction h generalizing out calls with
  | nil => simp [decode, hbad]
  | cons hd _ ih =>
    rw [List.cons_append]
    simp only [decode, hd]
    rw [ih]
    simp
    omega

/-! ## The transition system -/

theorem step_sound (c : Config V E) (a : Action) (s s' : Session V E)
    (h : step c a s = some s') : Step c s s' := by
  cases a with
  | coord =>
    simp only [step, stepCoord] at h
    split at h
    · next i hpc =>
      split at h
      · next hi => cases h; exact Step.spawn s i hpc hi
      · next hi => cases h; exact Step.spawnEnd s i hpc hi
    · next hpc =>
      cases hs : splitDelim nl s.r.data with
      | some p =>
        obtain ⟨l, rest⟩ := p
        simp only [ReadBytes, hs] at h
        cases h; exact Step.readLine s l rest hpc hs
      | none =>
        cases hf : s.r.fail with
        | none =>
          simp only [ReadBytes, hs, hf] at h
          cases h
          have hstep := Step.readEOF (c := c) s hpc hs hf
          simp only [hf] at hstep
          exact hstep
        | some e =>
          simp only [ReadBytes, hs, hf] at h
          cases h
          have hstep := Step.readErr (c := c) s e hpc hs hf
          simp only [hf] at hstep
          exact hstep
    · next l hpc =>
      split at h
      · next hg => cases h; exact Step.sendLine s l hpc hg.1 hg.2
      · cases h
    · next e hpc =>
      split at h
      · next hg => cases h; exact Step.sendReadErr s e hpc hg.1 hg.2
      · cases h
    · next hpc => cases h; exact Step.closeLines s hpc
    · next hpc =>
      split at h
      · next hg => cases h; exact Step.wait s hpc hg
      · cases h
    · next hpc => cases h; exact Step.closeOut s hpc
    · next hpc => cases h; exact Step.closeErrc s hpc
    · cases h
  | worker i =>
    simp only [step, stepWorker] at h
    split at h
    · cases h
    · next hw =>
      split at h
      · next line rest hl =>
        split at h
        · next e hd => cases h; exact Step.recvBad s i line rest e hw hl hd
        · next v hd => cases h; exact Step.recvOk s i line rest v hw hl hd
      · next hl =>
        split at h
        · next hc => cases h; exact Step.recvClosed s i hw hl hc
        · cases h
    · next v hw =>
      split at h
      · next hg => cases h; exact Step.sendOut s i v hw hg.1 hg.2
      · cases h
    · next e hw =>
      split at h
      · next hg => cases h; exact Step.sendErr s i e hw hg.1 hg.2
      · cases h
    · next hw => cases h; exact Step.workerDone s i hw
    · cases h
  | recvOut =>
    simp only [step] at h
    split at h
    · next v rest ho => cases h; exact Step.consumeOut s v rest ho
    · cases h
  | recvErr =>
    simp only [step] at h
    split at h
    · next e rest he => cases h; exact Step.consumeErr s e rest he
    · cases h

theorem step_complete (c : Config V E) (s s' : Session V E) (h : Step c s s') :
    ∃ a, step c a s = some s' := by
  cases h with
  | spawn i hpc hi => exact ⟨Action.coord, by simp [step, stepCoord, hpc, hi]⟩
  | spawnEnd i hpc hi => exact ⟨Action.coord, by simp [step, stepCoord, hpc, hi]⟩
  | readLine l rest hpc hs => exact ⟨Action.coord, by simp [step, stepCoord, hpc, ReadBytes, hs]⟩
  | readEOF hpc hs hf =>
    exact ⟨Action.coord, by simp [step, stepCoord, hpc, ReadBytes, hs, hf]⟩
  | readErr e hpc hs hf =>
    exact ⟨Action.coord, by simp [step, stepCoord, hpc, ReadBytes, hs, hf]⟩
  | sendLine l hpc hopen hcap =>
    exact ⟨Action.coord, by simp [step, stepCoord, hpc, hopen, hcap]⟩
  | sendReadErr e hpc hopen hcap =>
    exact ⟨Action.coord, by simp [step, stepCoord, hpc, hopen, hcap]⟩
  | closeLines hpc => exact ⟨Action.coord, by simp [step, stepCoord, hpc]⟩
  | wait hpc hwg => exact ⟨Action.coord, by simp [step, stepCoord, hpc, hwg]⟩
  | closeOut hpc => exact ⟨Action.coord, by simp [step, stepCoord, hpc]⟩
  | closeErrc hpc => exact ⟨Action.coord, by simp [step, stepCoord, hpc]⟩
  | recvOk i line rest v hw hl hd =>
    exact ⟨Action.worker i, by simp [step, stepWorker, hw, hl, hd]⟩
  | recvBad i line rest e hw hl hd =>
    exact ⟨Action.worker i, by simp [step, stepWorker, hw, hl, hd]⟩
  | recvClosed i hw hl hclosed =>
    exact ⟨Action.worker i, by simp [step, stepWorker, hw, hl, hclosed]⟩
  | sendOut i v hw hopen hcap =>
    exact ⟨Action.worker i, by simp [step, stepWorker, hw, hopen, hcap]⟩
  | sendErr i e hw hopen hcap =>
    exact ⟨Action.worker i, by simp [step, stepWorker, hw, hopen, hcap]⟩
  | workerDone i hw => exact ⟨Action.worker i, by simp [step, stepWorker, hw]⟩
  | consumeOut v rest ho => exact ⟨Action.recvOut, by simp [step, ho]⟩
  | consumeErr e rest he => exact ⟨Action.recvErr, by simp [step, he]⟩

theorem sum_map_set {M : Type} [AddCommMonoid M] (f : WorkerPc V E → M)
    (ws : List (WorkerPc V E)) (i : Nat) (w w' : WorkerPc V E) (h : ws[i]? = some w) :
    ((ws.set i w').map f).sum + f w = (ws.map f).sum + f w' := by
  induction ws generalizing i with
  | nil => simp at h
  | cons a as ih =>
    cases i with
    | zero =>
      simp at h
      subst h
      simp [add_comm, add_left_comm]
    | succ k =>
      simp at h
      have := ih k h
      simp only [List.set_cons_succ, List.map_cons, List.sum_cons]
      rw [add_assoc, this, add_assoc]

theorem potential_decreases (c : Config V E) (s s' : Session V E) (h : Step c s s') :
    potential c s' < potential c s := by
  cases h with
  | spawn i hpc hi => simp [potential, hpc, coordRank, workerRank]; omega
  | spawnEnd i hpc hi => simp [potential, hpc, coordRank]; omega
  | readLine l rest hpc hs =>
    obtain ⟨body, e1, _, e3⟩ := splitDelim_some nl _ l rest hs
    have hlen : rest.length < s.r.data.length := by rw [e3, e1]; simp; omega
    simp [potential, hpc, coordRank]; omega
  | readEOF hpc hs hf => simp [potential, hpc, coordRank]; omega
  | readErr e hpc hs hf => simp [potential, hpc, coordRank]; omega
  | sendLine l hpc hopen hcap => simp [potential, hpc, coordRank]; omega
  | sendReadErr e hpc hopen hcap => simp [potential, hpc, coordRank]; omega
  | closeLines hpc => simp [potential, hpc, coordRank]
  | wait hpc hwg => simp [potential, hpc, coordRank]
  | closeOut hpc => simp [potential, hpc, coordRank]
  | closeErrc hpc => simp [potential, hpc, coordRank]
  | recvOk i line rest v hw hl hd =>
    have := sum_map_set workerRank s.workers i _ (WorkerPc.sendOut v) hw
    simp [workerRank] at this
    simp [potential, hl, workerRank]; omega
  | recvBad i line rest e hw hl hd =>
    have := sum_map_set workerRank s.workers i _ (WorkerPc.sendErr e) hw
    simp [workerRank] at this
    simp [potential, hl, workerRank]; omega
  | recvClosed i hw hl hclosed =>
    have := sum_map_set workerRank s.workers i _ (WorkerPc.exit) hw
    simp [workerRank] at this
    simp [potential, workerRank]; omega
  | sendOut i v hw hopen hcap =>
    have := sum_map_set workerRank s.workers i _ (WorkerPc.recv) hw
    simp [workerRank] at this
    simp [potential, workerRank]; omega
  | sendErr i e hw hopen hcap =>
    have := sum_map_set workerRank s.workers i _ (WorkerPc.exit) hw
    simp [workerRank] at this
    simp [potential, workerRank]; omega
  | workerDone i hw =>
    have := sum_map_set workerRank s.workers i _ (WorkerPc.done) hw
    simp [workerRank] at this
    simp [potential, workerRank]; omega
  | consumeOut v rest ho => simp [potential, ho]
  | consumeErr e rest he => simp [potential, he]

theorem okVals_cons_ok (c : Config V E) (l : Line) (rest : List Line) (v : V)
    (h : decodeLine c.protofactory c.unmarshaller l = Except.ok v) :
    okVals c (l :: rest) = v :: okVals c rest := by
  simp [okVals, List.filterMap_cons, okOf, h]

theorem okVals_cons_bad (c : Config V E) (l : Line) (rest : List Line) (e : E)
    (h : decodeLine c.protofactory c.unmarshaller l = Except.error e) :
    okVals c (l :: rest) = okVals c rest := by
  simp [okVals, List.filterMap_cons, okOf, h]

theorem errVals_cons_ok (c : Config V E) (l : Line) (rest : List Line) (v : V)
    (h : decodeLine c.protofactory c.unmarshaller l = Except.ok v) :
    errVals c (l :: rest) = errVals c rest := by
  simp [errVals, List.filterMap_cons, errOf, h]

theorem errVals_cons_bad (c : Config V E) (l : Line) (rest : List Line) (e : E)
    (h : decodeLine c.protofactory c.unmarshaller l = Except.error e) :
    errVals c (l :: rest) = e :: errVals c rest := by
  simp [errVals, List.filterMap_cons, errOf, h]

theorem okVals_append (c : Config V E) (a b : List Line) :
    okVals c (a ++ b) = okVals c a ++ okVals c b := by
  simp [okVals]

theorem errVals_append (c : Config V E) (a b : List Line) :
    errVals c (a ++ b) = errVals c a ++ errVals c b := by
  simp [errVals]

theorem ofList_cons {α : Type} (a : α) (l : List α) :
    Multiset.ofList (a :: l) = Multiset.ofList [a] + Multiset.ofList l := by
  rw [Multiset.coe_add]; rfl

theorem workersVals_set (ws : List (WorkerPc V E)) (i : Nat) (w w' : WorkerPc V E)
    (h : ws[i]? = some w) :
    workersVals (ws.set i w') + Multiset.ofList (heldVal w)
      = workersVals ws + Multiset.ofList (heldVal w') :=
  sum_map_set (fun w => Multiset.ofList (heldVal w)) ws i w w' h

theorem workersErrs_set (ws : List (WorkerPc V E)) (i : Nat) (w w' : WorkerPc V E)
    (h : ws[i]? = some w) :
    workersErrs (ws.set i w') + Multiset.ofList (heldErr w)
      = workersErrs ws + Multiset.ofList (heldErr w') :=
  sum_map_set (fun w => Multiset.ofList (heldErr w)) ws i w w' h

theorem valContent_step (c : Config V E) (s s' : Session V E) (h : Step c s s') :
    valContent c s' = valContent c s := by
  cases h with
  | spawn i hpc hi => simp [valContent, workersVals, pendingLines, hpc, coordLine, heldVal]
  | spawnEnd i hpc hi => simp [valContent, pendingLines, hpc, coordLine]
  | readLine l rest hpc hs =>
    simp [valContent, pendingLines, hpc, coordLine, recordsOf_cons _ l rest hs]
  | readEOF hpc hs hf =>
    simp [valContent, pendingLines, hpc, coordLine, recordsOf_nil_of_none _ hs, recordsOf_empty]
  | readErr e hpc hs hf =>
    simp [valContent, pendingLines, hpc, coordLine, recordsOf_nil_of_none _ hs, recordsOf_empty]
  | sendLine l hpc hopen hcap =>
    simp only [valContent, pendingLines, hpc, coordLine, okVals_append, ← Multiset.coe_add,
      List.nil_append]
    abel
  | sendReadErr e hpc hopen hcap => simp [valContent, pendingLines, hpc, coordLine]
  | closeLines hpc => simp [valContent, pendingLines, hpc, coordLine]
  | wait hpc hwg => simp [valContent, pendingLines, hpc, coordLine]
  | closeOut hpc => simp [valContent, pendingLines, hpc, coordLine]
  | closeErrc hpc => simp [valContent, pendingLines, hpc, coordLine]
  | recvOk i line rest v hw hl hd =>
    have hset := workersVals_set s.workers i _ (WorkerPc.sendOut v) hw
    simp only [heldVal, Multiset.coe_nil, add_zero] at hset
    simp only [valContent, pendingLines, hl, okVals_cons_ok c line rest v hd, hset]
    rw [ofList_cons v (okVals c rest)]
    abel
  | recvBad i line rest e hw hl hd =>
    have hset := workersVals_set s.workers i _ (WorkerPc.sendErr e) hw
    simp only [heldVal, Multiset.coe_nil, add_zero] at hset
    simp only [valContent, pendingLines, hl, okVals_cons_bad c line rest e hd, hset]
  | recvClosed i hw hl hclosed =>
    have hset := workersVals_set s.workers i _ (WorkerPc.exit) hw
    simp only [heldVal, Multiset.coe_nil, add_zero] at hset
    simp only [valContent, pendingLines, hset]
  | sendOut i v hw hopen hcap =>
    have hset := workersVals_set s.workers i _ (WorkerPc.recv) hw
    simp only [heldVal, Multiset.coe_nil, add_zero] at hset
    simp only [valContent, pendingLines, ← hset, ← Multiset.coe_add]
    abel
  | sendErr i e hw hopen hcap =>
    have hset := workersVals_set s.workers i _ (WorkerPc.exit) hw
    simp only [heldVal, Multiset.coe_nil, add_zero] at hset
    simp only [valContent, pendingLines, hset]
  | workerDone i hw =>
    have hset := workersVals_set s.workers i _ (WorkerPc.done) hw
    simp only [heldVal, Multiset.coe_nil, add_zero] at hset
    simp only [valContent, pendingLines, hset]
  | consumeOut v rest ho =>
    simp only [valContent, pendingLines, ho, ← Multiset.coe_add]
    rw [ofList_cons v rest]
    abel
  | consumeErr e rest he => simp [valContent, pendingLines]

theorem errContent_step (c : Config V E) (s s' : Session V E) (h : Step c s s') :
    errContent c s' = errContent c s := by
  cases h with
  | spawn i hpc hi =>
    simp [errContent, workersErrs, pendingLines, pendingReadErr, readDone, hpc, coordLine,
      coordErr, heldErr]
  | spawnEnd i hpc hi =>
    simp [errContent, pendingLines, pendingReadErr, readDone, hpc, coordLine, coordErr]
  | readLine l rest hpc hs =>
    simp [errContent, pendingLines, pendingReadErr, readDone, hpc, coordLine, coordErr,
      recordsOf_cons _ l rest hs]
  | readEOF hpc hs hf =>
    simp [errContent, pendingLines, pendingReadErr, readDone, hpc, coordLine, coordErr,
      recordsOf_nil_of_none _ hs, recordsOf_empty, hf]
  | readErr e hpc hs hf =>
    simp [errContent, pendingLines, pendingReadErr, readDone, hpc, coordLine, coordErr,
      recordsOf_nil_of_none _ hs, recordsOf_empty, hf, errVals]
    abel
  | sendLine l hpc hopen hcap =>
    simp only [errContent, pendingLines, pendingReadErr, readDone, hpc, coordLine, coordErr,
      errVals_append, ← Multiset.coe_add, List.nil_append]
    abel
  | sendReadErr e hpc hopen hcap =>
    simp only [errContent, pendingLines, pendingReadErr, readDone, hpc, coordLine, coordErr,
      ← Multiset.coe_add, List.nil_append, errVals, List.filterMap_nil, Multiset.coe_nil,
      if_true, add_zero]
    abel
  | closeLines hpc =>
    simp [errContent, pendingLines, pendingReadErr, readDone, hpc, coordLine, coordErr]
  | wait hpc hwg =>
    simp [errContent, pendingLines, pendingReadErr, readDone, hpc, coordLine, coordErr]
  | closeOut hpc =>
    simp [errContent, pendingLines, pendingReadErr, readDone, hpc, coordLine, coordErr]
  | closeErrc hpc =>
    simp [errContent, pendingLines, pendingReadErr, readDone, hpc, coordLine, coordErr]
  | recvOk i line rest v hw hl hd =>
    have hset := workersErrs_set s.workers i _ (WorkerPc.sendOut v) hw
    simp only [heldErr, Multiset.coe_nil, add_zero] at hset
    simp only [errContent, pendingLines, pendingReadErr, hl, errVals_cons_ok c line rest v hd,
      hset]
  | recvBad i line rest e hw hl hd =>
    have hset := workersErrs_set s.workers i _ (WorkerPc.sendErr e) hw
    simp only [heldErr, Multiset.coe_nil, add_zero] at hset
    simp only [errContent, pendingLines, pendingReadErr, hl, errVals_cons_bad c line rest e hd,
      hset]
    rw [ofList_cons e (errVals c rest)]
    abel
  | recvClosed i hw hl hclosed =>
    have hset := workersErrs_set s.workers i _ (WorkerPc.exit) hw
    simp only [heldErr, Multiset.coe_nil, add_zero] at hset
    simp only [errContent, pendingLines, pendingReadErr, hset]
  | sendOut i v hw hopen hcap =>
    have hset := workersErrs_set s.workers i _ (WorkerPc.recv) hw
    simp only [heldErr, Multiset.coe_nil, add_zero] at hset
    simp only [errContent, pendingLines, pendingReadErr, hset]
  | sendErr i e hw hopen hcap =>
    have hset := workersErrs_set s.workers i _ (WorkerPc.exit) hw
    simp only [heldErr, Multiset.coe_nil, add_zero] at hset
    simp only [errContent, pendingLines, pendingReadErr, ← hset, ← Multiset.coe_add]
    abel
  | workerDone i hw =>
    have hset := workersErrs_set s.workers i _ (WorkerPc.done) hw
    simp only [heldErr, Multiset.coe_nil, add_zero] at hset
    simp only [errContent, pendingLines, pendingReadErr, hset]
  | consumeOut v rest ho => simp [errContent, pendingLines, pendingReadErr]
  | consumeErr e rest he =>
    simp only [errContent, pendingLines, pendingReadErr, he, ← Multiset.coe_add]
    rw [ofList_cons e rest]
    abel

/-! ## Preservation of the invariants -/

theorem Inv_step (c : Config V E) (s s' : Session V E) (h : Step c s s')
    (hI : Inv c s) : Inv c s' := by
  obtain ⟨h1, h2, h3, h4, h5, h6, h7, h8, h9, h10⟩ := hI
  simp only [errorsSent] at h8
  cases h with
  | spawn i hpc hi =>
    have := h2 i hpc
    constructor <;> simp_all [readDone, errorsSent] <;> omega
  | spawnEnd i hpc hi =>
    have := h2 i hpc
    constructor <;> simp_all [readDone, errorsSent]
  | readLine l rest hpc hs => constructor <;> simp_all [readDone, errorsSent]
  | readEOF hpc hs hf =>
    (constructor <;> simp_all [readDone, errorsSent])
    omega
  | readErr e hpc hs hf => constructor <;> simp_all [readDone, errorsSent]
  | sendLine l hpc hopen hcap => constructor <;> simp_all [readDone, errorsSent]
  | sendReadErr e hpc hopen hcap =>
    (constructor <;> simp_all [readDone, errorsSent])
    omega
  | closeLines hpc => constructor <;> simp_all [readDone, errorsSent]
  | wait hpc hwg => constructor <;> simp_all [readDone, errorsSent]
  | closeOut hpc => constructor <;> simp_all [readDone, errorsSent]
  | closeErrc hpc => constructor <;> simp_all [readDone, errorsSent]
  | recvOk i line rest v hw hl hd =>
    have a1 := sum_map_set activeW s.workers i _ (WorkerPc.sendOut v) hw
    have a2 := sum_map_set errBudget s.workers i _ (WorkerPc.sendOut v) hw
    simp only [activeW, errBudget] at a1 a2
    constructor <;>
      simp only [List.length_set, errorsSent, List.length_append, List.length_singleton] <;>
      first | assumption | omega
  | recvBad i line rest e hw hl hd =>
    have a1 := sum_map_set activeW s.workers i _ (WorkerPc.sendErr e) hw
    have a2 := sum_map_set errBudget s.workers i _ (WorkerPc.sendErr e) hw
    simp only [activeW, errBudget] at a1 a2
    constructor <;>
      simp only [List.length_set, errorsSent, List.length_append, List.length_singleton] <;>
      first | assumption | omega
  | recvClosed i hw hl hclosed =>
    have a1 := sum_map_set activeW s.workers i _ (WorkerPc.exit) hw
    have a2 := sum_map_set errBudget s.workers i _ (WorkerPc.exit) hw
    simp only [activeW, errBudget] at a1 a2
    constructor <;>
      simp only [List.length_set, errorsSent, List.length_append, List.length_singleton] <;>
      first | assumption | omega
  | sendOut i v hw hopen hcap =>
    have a1 := sum_map_set activeW s.workers i _ (WorkerPc.recv) hw
    have a2 := sum_map_set errBudget s.workers i _ (WorkerPc.recv) hw
    simp only [activeW, errBudget] at a1 a2
    constructor <;>
      simp only [List.length_set, errorsSent, List.length_append, List.length_singleton] <;>
      first | assumption | omega
  | sendErr i e hw hopen hcap =>
    have a1 := sum_map_set activeW s.workers i _ (WorkerPc.exit) hw
    have a2 := sum_map_set errBudget s.workers i _ (WorkerPc.exit) hw
    simp only [activeW, errBudget] at a1 a2
    constructor <;>
      simp only [List.length_set, errorsSent, List.length_append, List.length_singleton] <;>
      first | assumption | omega
  | workerDone i hw =>
    have a1 := sum_map_set activeW s.workers i _ (WorkerPc.done) hw
    have a2 := sum_map_set errBudget s.workers i _ (WorkerPc.done) hw
    simp only [activeW, errBudget] at a1 a2
    constructor <;>
      simp only [List.length_set, errorsSent, List.length_append, List.length_singleton] <;>
      first | assumption | omega | (intro hx; have := h7 hx; omega)
  | consumeOut v rest ho => constructor <;> simp_all [readDone, errorsSent]
  | consumeErr e rest he =>
    (constructor <;> simp_all [readDone, errorsSent])
    omega

theorem LeftBound_step (c : Config V E) (F : Nat) (s s' : Session V E) (h : Step c s s')
    (hI : Inv c s) (hL : LeftBound c F s) : LeftBound c F s' := by
  have hflag := hI.linesFlag
  unfold LeftBound at hL ⊢
  cases h with
  | spawn i hpc hi => simpa [pendingLines, hpc] using hL
  | spawnEnd i hpc hi => simpa [pendingLines, hpc] using hL
  | readLine l rest hpc hs =>
    simpa [pendingLines, hpc, recordsOf_cons _ l rest hs] using hL
  | readEOF hpc hs hf =>
    simpa [pendingLines, hpc, recordsOf_nil_of_none _ hs, recordsOf_empty] using hL
  | readErr e hpc hs hf =>
    simpa [pendingLines, hpc, recordsOf_nil_of_none _ hs, recordsOf_empty] using hL
  | sendLine l hpc hopen hcap =>
    rcases hL with hL | hL
    · left
      simp only [pendingLines, hpc, coordLine, errVals_append, List.length_append,
        List.nil_append] at hL ⊢
      omega
    · simp [hopen] at hL
  | sendReadErr e hpc hopen hcap => simpa [pendingLines, hpc] using hL
  | closeLines hpc =>
    rcases hL with hL | hL
    · left; simpa [pendingLines, hpc] using hL
    · right; simpa using hL.2
  | wait hpc hwg => simpa [pendingLines, hpc] using hL
  | closeOut hpc => simpa [pendingLines, hpc] using hL
  | closeErrc hpc => simpa [pendingLines, hpc] using hL
  | recvOk i line rest v hw hl hd =>
    have a1 := sum_map_set leftLoop s.workers i _ (WorkerPc.sendOut v) hw
    simp only [leftLoop] at a1
    rcases hL with hL | hL
    · left
      simp only [pendingLines, hl, errVals_cons_ok c line rest v hd] at hL ⊢
      omega
    · simp [hl] at hL
  | recvBad i line rest e hw hl hd =>
    have a1 := sum_map_set leftLoop s.workers i _ (WorkerPc.sendErr e) hw
    simp only [leftLoop] at a1
    rcases hL with hL | hL
    · left
      simp only [pendingLines, hl, errVals_cons_bad c line rest e hd, List.length_cons] at hL ⊢
      omega
    · simp [hl] at hL
  | recvClosed i hw hl hclosed => right; exact ⟨hclosed, hl⟩
  | sendOut i v hw hopen hcap =>
    have a1 := sum_map_set leftLoop s.workers i _ (WorkerPc.recv) hw
    simp only [leftLoop] at a1
    rcases hL with hL | hL
    · left
      simp only [pendingLines] at hL ⊢
      omega
    · right; exact hL
  | sendErr i e hw hopen hcap =>
    have a1 := sum_map_set leftLoop s.workers i _ (WorkerPc.exit) hw
    simp only [leftLoop] at a1
    rcases hL with hL | hL
    · left
      simp only [pendingLines] at hL ⊢
      omega
    · right; exact hL
  | workerDone i hw =>
    have a1 := sum_map_set leftLoop s.workers i _ (WorkerPc.done) hw
    simp only [leftLoop] at a1
    rcases hL with hL | hL
    · left
      simp only [pendingLines] at hL ⊢
      omega
    · right; exact hL
  | consumeOut v rest ho => simpa [pendingLines] using hL
  | consumeErr e rest he => simpa [pendingLines] using hL

theorem Inv_init (c : Config V E) (r : Reader E) : Inv c (Decode r) := by
  constructor <;> simp [Decode, errorsSent, readDone]

theorem LeftBound_init (c : Config V E) (r : Reader E) :
    LeftBound c (errVals c (recordsOf r.data)).length (Decode r) := by
  left
  simp [Decode, pendingLines, coordLine, errVals]

theorem valContent_init (c : Config V E) (r : Reader E) :
    valContent c (Decode r) = Multiset.ofList (okVals c (recordsOf r.data)) := by
  simp [valContent, Decode, workersVals, pendingLines, coordLine, okVals]

theorem errContent_init (c : Config V E) (r : Reader E) :
    errContent c (Decode r)
      = Multiset.ofList (errVals c (recordsOf r.data)) + Multiset.ofList r.fail.toList := by
  simp [errContent, Decode, workersErrs, pendingLines, coordLine, coordErr, errVals,
    pendingReadErr, readDone]

theorem fail_step (c : Config V E) (s s' : Session V E) (h : Step c s s') :
    s'.r.fail = s.r.fail := by
  cases h <;> rfl

theorem Good_init (c : Config V E) (r : Reader E) : Good c r (Decode r) :=
  ⟨Inv_init c r, LeftBound_init c r, valContent_init c r, errContent_init c r, rfl⟩

theorem Good_step (c : Config V E) (r : Reader E) (s s' : Session V E) (h : Step c s s')
    (hG : Good c r s) : Good c r s' :=
  ⟨Inv_step c s s' h hG.inv, LeftBound_step c _ s s' h hG.inv hG.left,
    (valContent_step c s s' h).trans hG.vals, (errContent_step c s s' h).trans hG.errs,
    (fail_step c s s' h).trans hG.fail⟩

theorem Good_exec (c : Config V E) (r : Reader E) (acts : List Action) (s s' : Session V E)
    (hG : Good c r s) (h : exec c acts s = some s') : Good c r s' := by
  induction acts generalizing s with
  | nil => simp [exec] at h; exact h ▸ hG
  | cons a as ih =>
    simp only [exec] at h
    cases hs : step c a s with
    | none => simp [hs] at h
    | some s1 =>
      rw [hs] at h
      exact ih s1 (Good_step c r s s1 (step_sound c a s s1 hs) hG) h

theorem exec_potential (c : Config V E) (acts : List Action) (s s' : Session V E)
    (h : exec c acts s = some s') : acts.length + potential c s' ≤ potential c s := by
  induction acts generalizing s with
  | nil => simp [exec] at h; simp [h]
  | cons a as ih =>
    simp only [exec] at h
    cases hs : step c a s with
    | none => simp [hs] at h
    | some s1 =>
      rw [hs] at h
      have h1 := potential_decreases c s s1 (step_sound c a s s1 hs)
      have h2 := ih s1 h
      simp only [List.length_cons]
      omega

/-! ## Progress and final states -/

theorem exists_zero_of_sum_lt {α : Type} (f : α → Nat) (ws : List α)
    (h : (ws.map f).sum < ws.length) : ∃ (i : Nat) (w : α), ws[i]? = some w ∧ f w = 0 := by
  induction ws with
  | nil => simp at h
  | cons a as ih =>
    by_cases ha : f a = 0
    · exact ⟨0, a, by simp, ha⟩
    · simp only [List.map_cons, List.sum_cons, List.length_cons] at h
      obtain ⟨i, w, hw, hz⟩ := ih (by omega)
      exact ⟨i + 1, w, by simpa using hw, hz⟩

theorem exists_pos_of_sum_pos {α : Type} (f : α → Nat) (ws : List α)
    (h : 0 < (ws.map f).sum) : ∃ (i : Nat) (w : α), ws[i]? = some w ∧ 0 < f w := by
  induction ws with
  | nil => simp at h
  | cons a as ih =>
    by_cases ha : 0 < f a
    · exact ⟨0, a, by simp, ha⟩
    · simp only [List.map_cons, List.sum_cons] at h
      obtain ⟨i, w, hw, hz⟩ := ih (by omega)
      exact ⟨i + 1, w, by simpa using hw, hz⟩

theorem le_sum_of_getElem? {α : Type} (f : α → Nat) (ws : List α) (i : Nat) (w : α)
    (h : ws[i]? = some w) : f w ≤ (ws.map f).sum := by
  induction ws generalizing i with
  | nil => simp at h
  | cons a as ih =>
    cases i with
    | zero => simp at h; subst h; simp
    | succ k =>
      simp at h
      have := ih k h
      simp only [List.map_cons, List.sum_cons]
      omega

theorem all_done_of_sum_zero (ws : List (WorkerPc V E)) (h : (ws.map activeW).sum = 0) :
    workersVals ws = 0 ∧ workersErrs ws = 0 ∧ (ws.map leftLoop).sum = ws.length
      ∧ (ws.map errBudget).sum = 0 := by
  induction ws with
  | nil => simp [workersVals, workersErrs]
  | cons a as ih =>
    simp only [List.map_cons, List.sum_cons] at h
    have ha : activeW a = 0 := by omega
    obtain ⟨h1, h2, h3, h4⟩ := ih (by omega)
    cases a <;> simp [activeW] at ha
    simp only [workersVals, workersErrs] at h1 h2 ⊢
    refine ⟨?_, ?_, ?_, ?_⟩
    · rw [List.map_cons, List.sum_cons, h1]; rfl
    · rw [List.map_cons, List.sum_cons, h2]; rfl
    · simp only [List.map_cons, List.sum_cons, h3, leftLoop, List.length_cons]
      omega
    · simp only [List.map_cons, List.sum_cons, h4, errBudget]

/-- The worker step that a worker in the loop of `decode` can take, or the
consumer step that unblocks it. -/
theorem worker_in_loop_enabled (c : Config V E) (s : Session V E) (hI : Inv c s)
    (hn : 1 ≤ c.n) (i : Nat) (w : WorkerPc V E) (hw : s.workers[i]? = some w)
    (hloop : leftLoop w = 0) (hlines : s.lines ≠ [] ∨ s.linesClosed = true)
    (hpc : waitPassed s.coord = false) :
    ∃ a, a ≠ Action.recvErr ∧ (step c a s).isSome = true := by
  cases w with
  | recv =>
    cases hl : s.lines with
    | nil =>
      have hcl : s.linesClosed = true := by
        rcases hlines with h | h
        · exact absurd hl h
        · exact h
      exact ⟨Action.worker i, by simp, by simp [step, stepWorker, hw, hl, hcl]⟩
    | cons line rest =>
      cases hd : decodeLine c.protofactory c.unmarshaller line with
      | error e => exact ⟨Action.worker i, by simp, by simp [step, stepWorker, hw, hl, hd]⟩
      | ok v => exact ⟨Action.worker i, by simp, by simp [step, stepWorker, hw, hl, hd]⟩
  | sendOut v =>
    have hopen : s.outClosed = false := by
      rw [hI.outFlag]
      cases hc : s.coord <;> simp_all
    by_cases hcap : s.out.length < c.n * 10
    · exact ⟨Action.worker i, by simp, by simp [step, stepWorker, hw, hopen, hcap]⟩
    · cases ho : s.out with
      | nil => simp [ho] at hcap; omega
      | cons v' rest => exact ⟨Action.recvOut, by simp, by simp [step, ho]⟩
  | sendErr e => simp at hloop
  | exit => simp at hloop
  | done => simp at hloop

theorem errc_not_full (c : Config V E) (s : Session V E) (hI : Inv c s)
    (h : 1 ≤ (s.workers.map errBudget).sum + coordBudget s.coord) :
    s.errcClosed = false ∧ s.errc.length < c.n + 1 := by
  have hb := hI.budget
  have hs := hI.spawned
  simp only [errorsSent] at hb
  refine ⟨?_, by omega⟩
  rw [hI.errcFlag]
  cases hc : s.coord <;> simp
  have hwg : s.wg = 0 := hI.waited (by simp [hc])
  have h0 := (all_done_of_sum_zero s.workers (hI.wgCount ▸ hwg)).2.2.2
  simp [hc, h0] at h

/-- Deadlock freedom: when the decode function rejects fewer lines than there
are workers, some step other than the consumer reading an error is enabled in
every reachable state in which the coordinator has not returned. -/
theorem progress (c : Config V E) (r : Reader E) (s : Session V E) (hG : Good c r s)
    (hF : (errVals c (recordsOf r.data)).length < c.n) (hc : s.coord ≠ CoordPc.done) :
    ∃ a, a ≠ Action.recvErr ∧ (step c a s).isSome = true := by
  have hI := hG.inv
  have hn : 1 ≤ c.n := by omega
  cases hpc : s.coord with
  | spawn i =>
    refine ⟨Action.coord, by simp, ?_⟩
    simp only [step, stepCoord, hpc]
    split <;> rfl
  | read =>
    refine ⟨Action.coord, by simp, ?_⟩
    simp only [step, stepCoord, hpc, ReadBytes]
    cases hs : splitDelim nl s.r.data with
    | none => cases hf : s.r.fail <;> rfl
    | some p => rfl
  | sendLine l =>
    have hopen : s.linesClosed = false := by rw [hI.linesFlag, hpc]; rfl
    by_cases hcap : s.lines.length < c.n * 10
    · exact ⟨Action.coord, by simp, by simp [step, stepCoord, hpc, hopen, hcap]⟩
    · have hlen : s.workers.length = c.n := by
        have := hI.spawned
        simpa [hpc] using this
      have hL : (s.workers.map leftLoop).sum < s.workers.length := by
        rcases hG.left with h | h
        · omega
        · simp [hopen] at h
      obtain ⟨i, w, hw, hz⟩ := exists_zero_of_sum_lt leftLoop s.workers hL
      have hne : s.lines ≠ [] := by
        intro h0
        simp [h0] at hcap
        omega
      exact worker_in_loop_enabled c s hI hn i w hw hz (Or.inl hne) (by simp [hpc])
  | sendErr e =>
    obtain ⟨h1, h2⟩ := errc_not_full c s hI (by simp [hpc])
    exact ⟨Action.coord, by simp, by simp [step, stepCoord, hpc, h1, h2]⟩
  | closeLines => exact ⟨Action.coord, by simp, by simp [step, stepCoord, hpc]⟩
  | wait =>
    by_cases hwg : s.wg = 0
    · exact ⟨Action.coord, by simp, by simp [step, stepCoord, hpc, hwg]⟩
    · have hpos : 0 < (s.workers.map activeW).sum := by
        have := hI.wgCount
        omega
      obtain ⟨i, w, hw, hz⟩ := exists_pos_of_sum_pos activeW s.workers hpos
      have hclosed : s.linesClosed = true := by rw [hI.linesFlag, hpc]; rfl
      cases w with
      | recv =>
        exact worker_in_loop_enabled c s hI hn i _ hw rfl (Or.inr hclosed) (by simp [hpc])
      | sendOut v =>
        exact worker_in_loop_enabled c s hI hn i _ hw rfl (Or.inr hclosed) (by simp [hpc])
      | sendErr e =>
        have hb := le_sum_of_getElem? errBudget s.workers i _ hw
        simp only [errBudget] at hb
        obtain ⟨h1, h2⟩ := errc_not_full c s hI (by omega)
        exact ⟨Action.worker i, by simp, by simp [step, stepWorker, hw, h1, h2]⟩
      | exit => exact ⟨Action.worker i, by simp, by simp [step, stepWorker, hw]⟩
      | done => simp at hz
  | closeOut => exact ⟨Action.coord, by simp, by simp [step, stepCoord, hpc]⟩
  | closeErrc => exact ⟨Action.coord, by simp, by simp [step, stepCoord, hpc]⟩
  | done => exact absurd hpc hc

theorem errVals_length (c : Config V E) (ls : List Line) :
    (errVals c ls).length = ls.countP (rejects c) := by
  induction ls with
  | nil => rfl
  | cons l ls ih =>
    cases hd : decodeLine c.protofactory c.unmarshaller l with
    | error e => simp [errVals_cons_bad c l ls e hd, ih, rejects, hd]
    | ok v => simp [errVals_cons_ok c l ls v hd, ih, rejects, hd]

theorem okVals_length (c : Config V E) (ls : List Line) :
    (okVals c ls).length + ls.countP (rejects c) = ls.length := by
  induction ls with
  | nil => rfl
  | cons l ls ih =>
    cases hd : decodeLine c.protofactory c.unmarshaller l with
    | error e => simp [okVals_cons_bad c l ls e hd, rejects, hd]; omega
    | ok v => simp [okVals_cons_ok c l ls v hd, rejects, hd]; omega

theorem terminal_of_check (c : Config V E) (s : Session V E)
    (h : terminalCheck c s = true) : Terminal c s := by
  intro a
  simp only [terminalCheck, actionsOf, List.all_cons, Bool.and_eq_true, List.all_eq_true,
    List.mem_map, List.mem_range] at h
  obtain ⟨h1, h2, h3, h4⟩ := h
  cases a with
  | coord => simpa using h1
  | recvOut => simpa using h2
  | recvErr => simpa using h3
  | worker i =>
    by_cases hi : i < s.workers.length
    · simpa using h4 (Action.worker i) ⟨i, hi, rfl⟩
    · have : s.workers[i]? = none := by simp; omega
      simp [step, stepWorker, this]

theorem potential_init (c : Config V E) (r : Reader E) :
    potential c (Decode (V := V) r) = 12 + 3 * c.n + 5 * r.data.length := by
  simp [potential, Decode, coordRank]

theorem exec_bound (c : Config V E) (r : Reader E) (acts : List Action) (s : Session V E)
    (h : exec c acts (Decode r) = some s) :
    acts.length ≤ 12 + 3 * c.n + 5 * r.data.length := by
  have := exec_potential c acts _ s h
  rw [potential_init] at this
  omega

theorem coord_done_of_closed (c : Config V E) (s : Session V E) (hI : Inv c s)
    (h : s.errcClosed = true) : s.coord = CoordPc.done := by
  have := hI.errcFlag
  rw [h] at this
  cases hc : s.coord <;> simp [hc] at this
  rfl

theorem closed_of_coord_done (c : Config V E) (s : Session V E) (hI : Inv c s)
    (h : s.coord = CoordPc.done) : Closed s ∧ s.linesClosed = true := by
  refine ⟨⟨?_, ?_⟩, ?_⟩
  · rw [hI.outFlag, h]; rfl
  · rw [hI.errcFlag, h]; rfl
  · rw [hI.linesFlag, h]; rfl

/-- What a session holds once the coordinator has returned. -/
theorem done_content (c : Config V E) (r : Reader E) (s : Session V E) (hG : Good c r s)
    (h : s.coord = CoordPc.done) :
    Multiset.ofList s.gotVals + Multiset.ofList s.out + Multiset.ofList (okVals c s.lines)
        = Multiset.ofList (okVals c (recordsOf r.data))
      ∧ Multiset.ofList s.gotErrs + Multiset.ofList s.errc
          + Multiset.ofList (errVals c s.lines)
        = Multiset.ofList (errVals c (recordsOf r.data)) + Multiset.ofList r.fail.toList
      ∧ (rejectedCount c r.data < c.n → s.lines = []) := by
  have hI := hG.inv
  have hwg : s.wg = 0 := hI.waited (by simp [h])
  obtain ⟨w1, w2, w3, _⟩ := all_done_of_sum_zero s.workers (hI.wgCount ▸ hwg)
  have hdata : s.r.data = [] := hI.readEnd (by simp [h, readDone])
  have hlen : s.workers.length = c.n := by simpa [h] using hI.spawned
  refine ⟨?_, ?_, ?_⟩
  · have := hG.vals
    simpa [valContent, w1, pendingLines, h, coordLine, hdata, recordsOf_empty, okVals] using this
  · have := hG.errs
    simpa [errContent, w2, pendingLines, pendingReadErr, h, coordLine, coordErr, hdata,
      recordsOf_empty, errVals, readDone] using this
  · intro hF
    rcases hG.left with hL | hL
    · have := errVals_length c (recordsOf r.data)
      unfold rejectedCount at hF
      omega
    · exact hL.2

/-- A terminal state of a session in which fewer lines are rejected than there
are workers: everything has been decoded and delivered. -/
theorem terminal_content (c : Config V E) (r : Reader E) (s : Session V E) (hG : Good c r s)
    (hF : rejectedCount c r.data < c.n) (ht : Terminal c s) :
    Closed s ∧ s.linesClosed = true ∧ s.lines = [] ∧ s.out = [] ∧ s.errc = []
      ∧ s.gotVals.Perm (okVals c (recordsOf r.data))
      ∧ s.gotErrs.Perm (errVals c (recordsOf r.data) ++ r.fail.toList) := by
  have hF' : (errVals c (recordsOf r.data)).length < c.n := by
    rw [errVals_length]; exact hF
  have hdone : s.coord = CoordPc.done := by
    by_contra hne
    obtain ⟨a, _, ha⟩ := progress c r s hG hF' hne
    rw [ht a] at ha
    simp at ha
  have hout : s.out = [] := by
    have := ht Action.recvOut
    cases ho : s.out with
    | nil => rfl
    | cons v rest => simp [step, ho] at this
  have herr : s.errc = [] := by
    have := ht Action.recvErr
    cases ho : s.errc with
    | nil => rfl
    | cons v rest => simp [step, ho] at this
  obtain ⟨hc1, hc2⟩ := closed_of_coord_done c s hG.inv hdone
  obtain ⟨d1, d2, d3⟩ := done_content c r s hG hdone
  have hl := d3 hF
  refine ⟨hc1, hc2, hl, hout, herr, ?_, ?_⟩
  · apply Multiset.coe_eq_coe.mp
    simpa [hl, hout, okVals] using d1
  · apply Multiset.coe_eq_coe.mp
    simpa [hl, herr, errVals] using d2


theorem splitDelim_append_none (d : Byte) (x y : List Byte) (hx : splitDelim d x = none)
    (hy : d ∉ y) : splitDelim d (x ++ y) = none := by
  rw [splitDelim_none_iff] at hx ⊢
  simp [hx, hy]

theorem stepCoord_extendInput (c : Config V E) (frag : List Byte) (hfrag : nl ∉ frag)
    (s : Session V E) :
    stepCoord c (extendInput frag s) = (stepCoord c s).map (extendInput frag) := by
  cases hpc : s.coord with
  | read =>
    cases hs : splitDelim nl s.r.data with
    | none =>
      have hs' := splitDelim_append_none nl _ frag hs hfrag
      cases hf : s.r.fail <;>
        simp [stepCoord, extendInput, withData, hpc, readDone, ReadBytes, hs, hs', hf]
    | some p =>
      obtain ⟨l, rest⟩ := p
      have hs' := splitDelim_append nl _ l rest frag hs
      simp [stepCoord, extendInput, withData, hpc, readDone, ReadBytes, hs, hs']
  | spawn i =>
    simp only [stepCoord, extendInput, withData, hpc, readDone]
    split <;> simp [extendInput, withData, readDone]
  | sendLine l =>
    simp only [stepCoord, extendInput, withData, hpc, readDone]
    split <;> simp [extendInput, withData, readDone]
  | sendErr e =>
    simp only [stepCoord, extendInput, withData, hpc, readDone]
    split <;> simp [extendInput, withData, readDone]
  | wait =>
    simp only [stepCoord, extendInput, withData, hpc, readDone]
    split <;> simp [extendInput, withData, readDone]
  | closeLines => simp [stepCoord, extendInput, withData, hpc, readDone]
  | closeOut => simp [stepCoord, extendInput, withData, hpc, readDone]
  | closeErrc => simp [stepCoord, extendInput, withData, hpc, readDone]
  | done => simp [stepCoord, extendInput, withData, hpc, readDone]

theorem stepWorker_extendInput (c : Config V E) (frag : List Byte) (i : Nat)
    (s : Session V E) :
    stepWorker c i (extendInput frag s) = (stepWorker c i s).map (extendInput frag) := by
  simp only [stepWorker, extendInput, withData]
  split <;> try rfl
  · split
    · split <;> rfl
    · split <;> rfl
  · split <;> rfl
  · split <;> rfl

theorem step_extendInput (c : Config V E) (frag : List Byte) (hfrag : nl ∉ frag)
    (a : Action) (s : Session V E) :
    step c a (extendInput frag s) = (step c a s).map (extendInput frag) := by
  cases a with
  | coord => exact stepCoord_extendInput c frag hfrag s
  | worker i => exact stepWorker_extendInput c frag i s
  | recvOut =>
    simp only [step, extendInput, withData]
    split <;> rfl
  | recvErr =>
    simp only [step, extendInput, withData]
    split <;> rfl

theorem exec_extendInput (c : Config V E) (frag : List Byte) (hfrag : nl ∉ frag)
    (acts : List Action) (s : Session V E) :
    exec c acts (extendInput frag s) = (exec c acts s).map (extendInput frag) := by
  induction acts generalizing s with
  | nil => rfl
  | cons a as ih =>
    simp only [exec, step_extendInput c frag hfrag]
    cases step c a s with
    | none => rfl
    | some s1 => simp [ih]

theorem eraseInput_extendInput (frag : List Byte) (s : Session V E) :
    eraseInput (extendInput frag s) = eraseInput s := rfl

theorem stepWorker_inv (c : Config V E) (i : Nat) (s s' : Session V E)
    (h : stepWorker c i s = some s') :
    ∃ w w', s.workers[i]? = some w ∧ s'.workers = s.workers.set i w'
      ∧ (leftLoop w = 1 → s'.lines = s.lines ∧ s'.out = s.out)
      ∧ (∀ e, w = WorkerPc.sendErr e → w' = WorkerPc.exit ∧ s'.errc = s.errc ++ [e])
      ∧ (w = WorkerPc.exit → w' = WorkerPc.done ∧ s'.errc = s.errc)
      ∧ w ≠ WorkerPc.done := by
  simp only [stepWorker] at h
  split at h
  · cases h
  · next hw =>
    split at h
    · split at h
      · cases h; exact ⟨_, _, hw, rfl, by simp, by simp, by simp, by simp⟩
      · cases h; exact ⟨_, _, hw, rfl, by simp, by simp, by simp, by simp⟩
    · split at h
      · cases h; exact ⟨_, _, hw, rfl, by simp, by simp, by simp, by simp⟩
      · cases h
  · next v hw =>
    split at h
    · cases h; exact ⟨_, _, hw, rfl, by simp, by simp, by simp, by simp⟩
    · cases h
  · next e hw =>
    split at h
    · cases h; exact ⟨_, _, hw, rfl, by simp, by simp, by simp, by simp⟩
    · cases h
  · next hw => cases h; exact ⟨_, _, hw, rfl, by simp, by simp, by simp, by simp⟩
  · cases h

theorem exec_append (c : Config V E) (a1 a2 : List Action) (s : Session V E) :
    exec c (a1 ++ a2) s = (exec c a1 s).bind (exec c a2) := by
  induction a1 generalizing s with
  | nil => rfl
  | cons a as ih =>
    simp only [List.cons_append, exec]
    cases step c a s with
    | none => rfl
    | some s1 => exact ih s1

/-- Every state has a continuation that cannot be extended. -/
theorem exists_terminal_run (c : Config V E) (s : Session V E) :
    ∃ acts s', exec c acts s = some s' ∧ Terminal c s' := by
  generalize hm : potential c s = m
  induction m using Nat.strong_induction_on generalizing s with
  | _ m ih =>
    by_cases ht : Terminal c s
    · exact ⟨[], s, rfl, ht⟩
    · simp only [Terminal, not_forall] at ht
      obtain ⟨a, ha⟩ := ht
      cases hs : step c a s with
      | none => exact absurd hs ha
      | some s1 =>
        have hlt := potential_decreases c s s1 (step_sound c a s s1 hs)
        obtain ⟨acts, s', h1, h2⟩ := ih (potential c s1) (hm ▸ hlt) s1 rfl
        exact ⟨a :: acts, s', by simp [exec, hs, h1], h2⟩

/-- The model never attempts what would panic in Go: a send finds its channel
open, and a channel is closed only once. -/
theorem sends_find_channel_open (c : Config V E) (s : Session V E) (hI : Inv c s) :
    (∀ l, s.coord = CoordPc.sendLine l → s.linesClosed = false)
      ∧ (∀ (i : Nat) (v : V), s.workers[i]? = some (WorkerPc.sendOut v) → s.outClosed = false)
      ∧ (∀ (i : Nat) (e : E), s.workers[i]? = some (WorkerPc.sendErr e) →
          s.errcClosed = false)
      ∧ (∀ e, s.coord = CoordPc.sendErr e → s.errcClosed = false)
      ∧ (s.coord = CoordPc.closeLines → s.linesClosed = false)
      ∧ (s.coord = CoordPc.closeOut → s.outClosed = false)
      ∧ (s.coord = CoordPc.closeErrc → s.errcClosed = false) := by
  refine ⟨?_, ?_, ?_, ?_, ?_, ?_, ?_⟩
  · intro l h; rw [hI.linesFlag, h]; rfl
  · intro i v hw
    have hle := le_sum_of_getElem? activeW s.workers i _ hw
    simp only [activeW] at hle
    have hwg := hI.wgCount
    rw [hI.outFlag]
    cases hc : s.coord <;> simp
    · have := hI.waited (by simp [hc]); omega
    · have := hI.waited (by simp [hc]); omega
  · intro i e hw
    have hle := le_sum_of_getElem? errBudget s.workers i _ hw
    simp only [errBudget] at hle
    exact (errc_not_full c s hI (by omega)).1
  · intro e h
    exact (errc_not_full c s hI (by simp [h])).1
  · intro h; rw [hI.linesFlag, h]; rfl
  · intro h; rw [hI.outFlag, h]; rfl
  · intro h; rw [hI.errcFlag, h]; rfl

theorem Good_of_run (c : Config V E) (r : Reader E) (acts : List Action) (s : Session V E)
    (h : exec c acts (Decode r) = some s) : Good c r s :=
  Good_exec c r acts _ s (Good_init c r) h

theorem rejectedCount_zero (c : Config V E) (data : List Byte)
    (hok : ∀ l ∈ recordsOf data, rejects c l = false) : rejectedCount c data = 0 := by
  unfold rejectedCount
  rw [List.countP_eq_zero]
  intro l hl
  simp [hok l hl]

theorem okVals_count (c : Config V E) (data : List Byte) :
    (okVals c (recordsOf data)).length + rejectedCount c data = data.count nl := by
  rw [← recordsOf_length]
  exact okVals_length c (recordsOf data)

/-! ## Sessions in which every worker fails -/

theorem Dequeued_step (c : Config V E) (F : Nat) (s s' : Session V E) (h : Step c s s')
    (hD : Dequeued c F s) : Dequeued c F s' := by
  unfold Dequeued at hD ⊢
  obtain ⟨hcap0, hD⟩ := hD
  cases h with
  | spawn i hpc hi => exact ⟨hcap0, by simpa [pendingLines, hpc] using hD⟩
  | spawnEnd i hpc hi => exact ⟨hcap0, by simpa [pendingLines, hpc] using hD⟩
  | readLine l rest hpc hs =>
    exact ⟨hcap0, by simpa [pendingLines, hpc, recordsOf_cons _ l rest hs] using hD⟩
  | readEOF hpc hs hf =>
    exact ⟨hcap0,
      by simpa [pendingLines, hpc, recordsOf_nil_of_none _ hs, recordsOf_empty] using hD⟩
  | readErr e hpc hs hf =>
    exact ⟨hcap0,
      by simpa [pendingLines, hpc, recordsOf_nil_of_none _ hs, recordsOf_empty] using hD⟩
  | sendLine l hpc hopen hcap =>
    refine ⟨by simp only [List.length_append, List.length_singleton]; omega, ?_⟩
    simp only [pendingLines, hpc, coordLine, errVals_append, List.length_append,
      List.nil_append] at hD ⊢
    omega
  | sendReadErr e hpc hopen hcap => exact ⟨hcap0, by simpa [pendingLines, hpc] using hD⟩
  | closeLines hpc => exact ⟨hcap0, by simpa [pendingLines, hpc] using hD⟩
  | wait hpc hwg => exact ⟨hcap0, by simpa [pendingLines, hpc] using hD⟩
  | closeOut hpc => exact ⟨hcap0, by simpa [pendingLines, hpc] using hD⟩
  | closeErrc hpc => exact ⟨hcap0, by simpa [pendingLines, hpc] using hD⟩
  | recvOk i line rest v hw hl hd =>
    have a1 := sum_map_set leftLoop s.workers i _ (WorkerPc.sendOut v) hw
    simp only [leftLoop] at a1
    simp only [hl, List.length_cons] at hcap0
    simp only [pendingLines, hl, errVals_cons_ok c line rest v hd] at hD ⊢
    exact ⟨by omega, by omega⟩
  | recvBad i line rest e hw hl hd =>
    have a1 := sum_map_set leftLoop s.workers i _ (WorkerPc.sendErr e) hw
    simp only [leftLoop] at a1
    simp only [hl, List.length_cons] at hcap0
    simp only [pendingLines, hl, errVals_cons_bad c line rest e hd, List.length_cons] at hD ⊢
    exact ⟨by omega, by omega⟩
  | recvClosed i hw hl hclosed =>
    have a1 := sum_map_set leftLoop s.workers i _ (WorkerPc.exit) hw
    simp only [leftLoop] at a1
    simp only [pendingLines] at hD ⊢
    exact ⟨hcap0, by omega⟩
  | sendOut i v hw hopen hcap =>
    have a1 := sum_map_set leftLoop s.workers i _ (WorkerPc.recv) hw
    simp only [leftLoop] at a1
    simp only [pendingLines] at hD ⊢
    exact ⟨hcap0, by omega⟩
  | sendErr i e hw hopen hcap =>
    have a1 := sum_map_set leftLoop s.workers i _ (WorkerPc.exit) hw
    simp only [leftLoop] at a1
    simp only [pendingLines] at hD ⊢
    exact ⟨hcap0, by omega⟩
  | workerDone i hw =>
    have a1 := sum_map_set leftLoop s.workers i _ (WorkerPc.done) hw
    simp only [leftLoop] at a1
    simp only [pendingLines] at hD ⊢
    exact ⟨hcap0, by omega⟩
  | consumeOut v rest ho => exact ⟨hcap0, by simpa [pendingLines] using hD⟩
  | consumeErr e rest he => exact ⟨hcap0, by simpa [pendingLines] using hD⟩

theorem Dequeued_init (c : Config V E) (r : Reader E) :
    Dequeued c (errVals c (recordsOf r.data)).length (Decode r) := by
  simp [Dequeued, Decode, pendingLines, coordLine, errVals]

theorem Dequeued_exec (c : Config V E) (F : Nat) (acts : List Action) (s s' : Session V E)
    (hD : Dequeued c F s) (h : exec c acts s = some s') : Dequeued c F s' := by
  induction acts generalizing s with
  | nil => simp [exec] at h; exact h ▸ hD
  | cons a as ih =>
    simp only [exec] at h
    cases hs : step c a s with
    | none => simp [hs] at h
    | some s1 =>
      rw [hs] at h
      exact ih s1 (Dequeued_step c F s s1 (step_sound c a s s1 hs) hD) h

theorem sum_leftLoop_le (ws : List (WorkerPc V E)) : (ws.map leftLoop).sum ≤ ws.length := by
  induction ws with
  | nil => simp
  | cons a as ih =>
    have : leftLoop a ≤ 1 := by cases a <;> simp [leftLoop]
    simp only [List.map_cons, List.sum_cons, List.length_cons]
    omega

theorem errVals_length_le (c : Config V E) (ls : List Line) :
    (errVals c ls).length ≤ ls.length := by
  rw [errVals_length]
  exact List.countP_le_length _

/-- When the decode function rejects more than `11 * n` lines of the input,
`readLines` never returns: in every reachable state the coordinator is still
at or before `lines <- line`, so `lines` is never closed, neither stream is
ever closed, and every error sent is the decode error of a line (the read
error that ends the input is never sent). -/
theorem readLines_never_returns (c : Config V E) (r : Reader E)
    (hF : 11 * c.n < rejectedCount c r.data)
    (acts : List Action) (s : Session V E)
    (hrun : exec c acts (Decode r) = some s) :
    readDone s.coord = false ∧ s.linesClosed = false ∧ ¬ Closed s
      ∧ Multiset.ofList (s.gotErrs ++ s.errc)
          ≤ Multiset.ofList (errVals c (recordsOf r.data)) := by
  have hG := Good_exec c r acts _ s (Good_init c r) hrun
  have hD := Dequeued_exec c _ acts _ s (Dequeued_init c r) hrun
  obtain ⟨hcap, hlow⟩ := hD
  have hI := hG.inv
  have hnot : readDone s.coord = false := by
    cases hrd : readDone s.coord with
    | false => rfl
    | true =>
      exfalso
      have hdata := hI.readEnd hrd
      have hline : coordLine s.coord = [] := by
        cases hc : s.coord <;> simp [hc, readDone, coordLine] at hrd ⊢
      have h1 := sum_leftLoop_le s.workers
      have h2 := errVals_length_le c s.lines
      have h3 := hI.spawned
      have h4 := errVals_length c (recordsOf r.data)
      simp only [pendingLines, hline, hdata, recordsOf_empty, List.nil_append, errVals,
        List.filterMap_nil, List.length_nil] at hlow
      unfold rejectedCount at hF
      simp only [errVals] at h2 h4
      omega
  have hlc : s.linesClosed = false := by
    rw [hI.linesFlag]
    cases hc : s.coord <;> simp [hc, readDone] at hnot ⊢
  have hec : s.errcClosed = false := by
    rw [hI.errcFlag]
    cases hc : s.coord <;> simp [hc, readDone] at hnot ⊢
  refine ⟨hnot, hlc, fun h => Bool.noConfusion (hec.symm.trans h.2), ?_⟩
  have herr := hG.errs
  have hfail : s.r.fail = r.fail := hG.fail
  simp only [errContent, pendingReadErr, hnot, hfail] at herr
  simp only [Bool.false_eq_true, if_false] at herr
  have herr' := add_right_cancel herr
  rw [Multiset.le_iff_exists_add]
  refine ⟨workersErrs s.workers + Multiset.ofList (coordErr s.coord)
    + Multiset.ofList (errVals c s.lines) + Multiset.ofList (errVals c (pendingLines s)), ?_⟩
  rw [← herr', ← Multiset.coe_add]
  abel

/-! ## What the sessions that are not blocked guarantee -/

/-- Deadlock freedom while a worker survives (a sufficient condition). When
the decode function rejects fewer lines of the input than there are workers,
then for every finite input and under a consumer that keeps draining the
result stream, no reachable state in which a stream is still open is stuck;
every step decreases the termination measure `potential`, so every run is
finite; and every reachable state has a continuation, ending where no step is
left, in which both streams are closed. -/
theorem no_deadlock_while_a_worker_survives (c : Config V E) (r : Reader E)
    (hF : rejectedCount c r.data < c.n)
    (acts : List Action) (s : Session V E)
    (hrun : exec c acts (Decode r) = some s) :
    acts.length + potential c s ≤ 12 + 3 * c.n + 5 * r.data.length
      ∧ (¬ Closed s → ∃ a s', a ≠ Action.recvErr ∧ step c a s = some s')
      ∧ (Terminal c s → Closed s)
      ∧ ∃ acts' s', exec c acts' s = some s' ∧ Terminal c s' ∧ Closed s' := by
  have hG := Good_of_run c r acts s hrun
  refine ⟨?_, ?_, ?_, ?_⟩
  · have := exec_potential c acts _ s hrun
    rw [potential_init] at this
    exact this
  · intro hnc
    have hne : s.coord ≠ CoordPc.done := by
      intro hd
      exact hnc (closed_of_coord_done c s hG.inv hd).1
    have hF' : (errVals c (recordsOf r.data)).length < c.n := by
      rw [errVals_length]; exact hF
    obtain ⟨a, ha, hs⟩ := progress c r s hG hF' hne
    obtain ⟨s', hs'⟩ := Option.isSome_iff_exists.mp hs
    exact ⟨a, s', ha, hs'⟩
  · intro ht
    exact (terminal_content c r s hG hF ht).1
  · obtain ⟨acts', s', h1, h2⟩ := exists_terminal_run c s
    have hG' := Good_exec c r acts' s s' hG h1
    exact ⟨acts', s', h1, h2, (terminal_content c r s' hG' hF h2).1⟩

/-- Example: two workers, two lines of which the first is rejected; after
worker 0 has failed and returned, a step is still enabled. -/
theorem no_deadlock_while_a_worker_survives_example :
    rejectedCount (exampleCfg 2) [0, 10, 97, 10] < (exampleCfg 2).n
      ∧ exec (exampleCfg 2) (runOneRejected.take 12) (Decode (Reader.mk [0, 10, 97, 10] none))
          = some oneRejectedMidRun
      ∧ ¬ Closed oneRejectedMidRun
      ∧ ∃ a s', a ≠ Action.recvErr ∧ step (exampleCfg 2) a oneRejectedMidRun = some s' :=
  ⟨by decide, rfl, fun h => Bool.noConfusion h.1,
    (no_deadlock_while_a_worker_survives (exampleCfg 2) (Reader.mk [0, 10, 97, 10] none)
      (by decide) (runOneRejected.take 12) oneRejectedMidRun rfl).2.1
      (fun h => Bool.noConfusion h.1)⟩

/-- Read failure, what every session guarantees. On an input that ends with a
read error `e`, `readLines` run on its own sends the complete lines read
before the failure and returns `e`. In the session, a coordinator for which
`readLines` has returned holds exactly `e`, can always send it on `errc`, and
goes on to `close(lines)`; the errors sent never exceed the decode errors of
the lines plus the one read error; every run is finite and can be continued
until no step is left; and with at least one worker and no rejected line, a
run that cannot be extended has closed `lines` and both streams after
delivering one value per line and exactly the one error `e`. Nothing here
says that `readLines` does return in the session. -/
theorem read_failure_when_readLines_returns (c : Config V E) (data : List Byte) (e : E) :
    readLines (Reader.mk data (some e)) = some (recordsOf data, some e)
      ∧ (recordsOf data).length = data.count nl
      ∧ (∀ r ∈ recordsOf data, ∃ body, r = body ++ [nl] ∧ nl ∉ body)
      ∧ (recordsOf data).flatten = truncateAfterLastNewline data
      ∧ ∀ (acts : List Action) (s : Session V E),
          exec c acts (Decode (Reader.mk data (some e))) = some s →
          acts.length ≤ 12 + 3 * c.n + 5 * data.length
            ∧ (∃ acts' s', exec c acts' s = some s' ∧ Terminal c s')
            ∧ (∀ e', s.coord = CoordPc.sendErr e' →
                e' = e ∧ ∃ s', step c Action.coord s = some s'
                  ∧ s'.errc = s.errc ++ [e] ∧ s'.coord = CoordPc.closeLines)
            ∧ Multiset.ofList (s.gotErrs ++ s.errc)
                ≤ Multiset.ofList (errVals c (recordsOf data) ++ [e])
            ∧ (1 ≤ c.n → (∀ l ∈ recordsOf data, rejects c l = false) → Terminal c s →
                Closed s ∧ s.linesClosed = true ∧ s.out = [] ∧ s.errc = []
                  ∧ s.gotErrs = [e]
                  ∧ s.gotVals.length = data.count nl
                  ∧ s.gotVals.Perm (okVals c (recordsOf data))) := by
  refine ⟨readLines_eq data (some e), recordsOf_length data, recordsOf_shape data,
    recordsOf_flatten data, ?_⟩
  intro acts s hrun
  have hG := Good_of_run c _ acts s hrun
  refine ⟨exec_bound c _ acts s hrun, exists_terminal_run c s, ?_, ?_, ?_⟩
  · intro e' hpc
    have h1 := hG.inv.readErrHeld e' hpc
    have h2 : s.r.fail = some e := hG.fail
    have he : e' = e := by
      rw [h1] at h2
      exact Option.some.inj h2
    obtain ⟨g1, g2⟩ := errc_not_full c s hG.inv (by simp [hpc])
    subst he
    exact ⟨rfl, { s with errc := s.errc ++ [e'], coord := CoordPc.closeLines },
      by simp [step, stepCoord, hpc, g1, g2], rfl, rfl⟩
  · have := hG.errs
    rw [Multiset.le_iff_exists_add]
    refine ⟨workersErrs s.workers + Multiset.ofList (coordErr s.coord)
      + Multiset.ofList (errVals c s.lines) + Multiset.ofList (errVals c (pendingLines s))
      + Multiset.ofList (pendingReadErr s), ?_⟩
    simp only [errContent] at this
    simp only [← Multiset.coe_add, Option.toList] at this ⊢
    rw [← this]
    abel
  · intro hn hok ht
    have h0 := rejectedCount_zero c data hok
    have hcount := okVals_count c data
    obtain ⟨t1, t2, _, t4, t5, t6, t7⟩ :=
      terminal_content c _ s hG (by simp only [h0]; omega) ht
    have t6' : s.gotVals.Perm (okVals c (recordsOf data)) := t6
    have t7' : s.gotErrs.Perm (errVals c (recordsOf data) ++ [e]) := t7
    have herrs : errVals c (recordsOf data) = [] := by
      apply List.length_eq_zero.mp
      rw [errVals_length]; exact h0
    rw [herrs] at t7'
    refine ⟨t1, t2, t4, t5, List.perm_singleton.mp t7', ?_, t6'⟩
    rw [t6'.length_eq]
    simp only [h0] at hcount
    omega

/-- Example: one worker, the input `a\n`, `b` ending with read error 9: the
complete run delivers the value of the line and exactly the error 9. -/
theorem read_failure_when_readLines_returns_example :
    exec (exampleCfg 1) runReadFailure (Decode (Reader.mk [97, 10, 98] (some 9)))
        = some (finalState 1 (some 9) [] [2] [9])
      ∧ Closed (finalState 1 (some 9) [] [2] [9])
      ∧ (finalState 1 (some 9) [] [2] [9]).linesClosed = true
      ∧ (finalState 1 (some 9) [] [2] [9]).out = []
      ∧ (finalState 1 (some 9) [] [2] [9]).errc = []
      ∧ (finalState 1 (some 9) [] [2] [9]).gotErrs = [9]
      ∧ (finalState 1 (some 9) [] [2] [9]).gotVals.length = List.count nl [97, 10, 98]
      ∧ (finalState 1 (some 9) [] [2] [9]).gotVals.Perm
          (okVals (exampleCfg 1) (recordsOf [97, 10, 98])) :=
  ⟨rfl, ((read_failure_when_readLines_returns (exampleCfg 1) [97, 10, 98] 9).2.2.2.2 runReadFailure
    (finalState 1 (some 9) [] [2] [9]) rfl).2.2.2.2 (by decide) (by decide)
    (terminal_of_check _ _ rfl)⟩

/-! ## The claims -/

/-- Claim C1. With at least one worker, an input that ends with end-of-input and
a decode function that accepts every line of it: every run is finite (its
length is bounded) and can be continued until no step is left, no error is
ever sent on the error stream, and a run that cannot be extended has closed
both streams after delivering exactly one value per newline-terminated line
(`data.count nl` of them, whatever `n` is): the decoded values of the lines,
in some order. -/
theorem all_records_decoded (c : Config V E) (data : List Byte) (hn : 1 ≤ c.n)
    (hok : ∀ l ∈ recordsOf data, rejects c l = false)
    (acts : List Action) (s : Session V E)
    (hrun : exec c acts (Decode (Reader.mk data none)) = some s) :
    acts.length ≤ 12 + 3 * c.n + 5 * data.length
      ∧ s.errc = [] ∧ s.gotErrs = []
      ∧ (∃ acts' s', exec c acts' s = some s' ∧ Terminal c s')
      ∧ (Terminal c s →
          Closed s ∧ s.out = [] ∧ s.gotVals.length = data.count nl
            ∧ s.gotVals.Perm (okVals c (recordsOf data))) := by
  have hG := Good_of_run c _ acts s hrun
  have h0 := rejectedCount_zero c data hok
  have hcount := okVals_count c data
  have herrs : (errVals c (recordsOf data)).length = 0 := by
    rw [errVals_length]; exact h0
  have hcard := congrArg Multiset.card hG.errs
  simp only [errContent, Multiset.card_add, Multiset.coe_card, herrs, Option.toList,
    List.length_nil] at hcard
  refine ⟨exec_bound c _ acts s hrun, ?_, ?_, exists_terminal_run c s, ?_⟩
  · exact List.length_eq_zero.mp (by omega)
  · exact List.length_eq_zero.mp (by omega)
  · intro ht
    obtain ⟨t1, _, _, t4, _, t6, _⟩ := terminal_content c _ s hG (by simp only [h0]; omega) ht
    have t6' : s.gotVals.Perm (okVals c (recordsOf data)) := t6
    refine ⟨t1, t4, ?_, t6'⟩
    rw [t6'.length_eq]
    simp only [h0] at hcount
    omega

/-- Witness for C1: the complete run of one worker on `a\n` delivers one
value. -/
theorem all_records_decoded_witness :
    exec (exampleCfg 1) runOneLine (Decode (Reader.mk [97, 10] none))
        = some (finalState 1 none [] [2] [])
      ∧ Closed (finalState 1 none [] [2] []) ∧ (finalState 1 none [] [2] []).out = []
      ∧ (finalState 1 none [] [2] []).gotVals.length = List.count nl [97, 10]
      ∧ (finalState 1 none [] [2] []).gotVals.Perm
          (okVals (exampleCfg 1) (recordsOf [97, 10])) :=
  ⟨rfl, (all_records_decoded (exampleCfg 1) [97, 10] (by decide) (by decide) runOneLine
    (finalState 1 none [] [2] []) rfl).2.2.2.2 (terminal_of_check _ _ rfl)⟩

/-- Counterexample to C2 as stated: with one worker and three lines of which
the first is rejected, a run closes both streams having emitted no value, the
two accepted lines being left in the work queue: 0 values plus 1 rejected
line is not 3 lines. -/
theorem work_conservation_counterexample :
    exec (exampleCfg 1) runFirstRejected (Decode (Reader.mk firstRejectedInput none))
        = some (finalState 1 none [[97, 10], [98, 10]] [] [7])
      ∧ Terminal (exampleCfg 1) (finalState 1 none [[97, 10], [98, 10]] [] [7])
      ∧ Closed (finalState 1 none [[97, 10], [98, 10]] [] [7])
      ∧ valuesSent (finalState 1 none [[97, 10], [98, 10]] [] [7])
          + rejectedCount (exampleCfg 1) firstRejectedInput
        ≠ firstRejectedInput.count nl :=
  ⟨rfl, terminal_of_check _ _ rfl, ⟨rfl, rfl⟩, by decide⟩

/-- Claim C2, amended. Work conservation at the close of a session on an input
that ends with end-of-input, for every worker count and every decode
function: the values sent on the result stream, the errors sent on the error
stream and the lines left undequeued in the work queue add up to the number of
newline-terminated lines of the input, and the errors sent plus the rejected
lines left in the queue are the rejected lines; when fewer lines are rejected
than there are workers no line is left in the queue, so the values sent plus
the rejected lines are all the lines, for every such worker count. -/
theorem work_conservation_at_close (c : Config V E) (data : List Byte)
    (acts : List Action) (s : Session V E)
    (hrun : exec c acts (Decode (Reader.mk data none)) = some s)
    (hclosed : Closed s) :
    valuesSent s + errorsSent s + s.lines.length = data.count nl
      ∧ errorsSent s + s.lines.countP (rejects c) = rejectedCount c data
      ∧ (rejectedCount c data < c.n →
          s.lines = [] ∧ valuesSent s + rejectedCount c data = data.count nl) := by
  have hG := Good_of_run c _ acts s hrun
  have hdone := coord_done_of_closed c s hG.inv hclosed.2
  obtain ⟨d1, d2, d3⟩ := done_content c _ s hG hdone
  have hcount := okVals_count c data
  have c1 := congrArg Multiset.card d1
  have c2 := congrArg Multiset.card d2
  simp only [Multiset.card_add, Multiset.coe_card, Option.toList, List.length_nil] at c1 c2
  have e1 := errVals_length c s.lines
  have e2 := okVals_length c s.lines
  have e3 := errVals_length c (recordsOf data)
  have hrej : errorsSent s + s.lines.countP (rejects c) = rejectedCount c data := by
    simp only [errorsSent, rejectedCount]; omega
  refine ⟨?_, hrej, ?_⟩
  · simp only [valuesSent, errorsSent]
    simp only [rejectedCount] at hcount
    omega
  · intro hF
    have hl := d3 hF
    refine ⟨hl, ?_⟩
    simp only [hl, List.length_nil, List.countP_nil] at *
    simp only [valuesSent, errorsSent, rejectedCount] at *
    omega

/-- Witness for C2 (amended): in the closed state of the same run, 0 values, 1
error and 2 lines left in the queue account for the 3 lines. -/
theorem work_conservation_at_close_witness :
    Closed (finalState 1 none [[97, 10], [98, 10]] [] [7])
      ∧ valuesSent (finalState 1 none [[97, 10], [98, 10]] [] [7])
        + errorsSent (finalState 1 none [[97, 10], [98, 10]] [] [7])
        + (finalState 1 none [[97, 10], [98, 10]] [] [7]).lines.length
      = firstRejectedInput.count nl :=
  ⟨⟨rfl, rfl⟩, (work_conservation_at_close (exampleCfg 1) firstRejectedInput runFirstRejected
    (finalState 1 none [[97, 10], [98, 10]] [] [7]) rfl ⟨rfl, rfl⟩).1⟩

/-- Claim C3, at a failing input (a defect of the code). One worker, twelve
lines, all rejected, end-of-input, a consumer draining both streams. The run
`runAllRejected` reaches a state in which no step of the coordinator, of the
worker or of the consumer is enabled although neither stream is closed: the
only worker has returned after its first decode failure and `readLines` is
blocked at `lines <- line` on the full work queue. And this is so in every
run on this input: no reachable state has `lines` or a stream closed, and
every reachable state has a continuation that ends stuck with the streams
open. -/
theorem session_blocks_after_every_worker_failed :
    exec (exampleCfg 1) runAllRejected (Decode (Reader.mk allRejectedInput none))
        = some blockedState
      ∧ Terminal (exampleCfg 1) blockedState
      ∧ ¬ Closed blockedState
      ∧ ∀ (acts : List Action) (s : Session Nat Nat),
          exec (exampleCfg 1) acts (Decode (Reader.mk allRejectedInput none)) = some s →
          s.linesClosed = false ∧ ¬ Closed s
            ∧ ∃ acts' s', exec (exampleCfg 1) acts' s = some s'
                ∧ Terminal (exampleCfg 1) s' ∧ ¬ Closed s' := by
  refine ⟨rfl, terminal_of_check _ _ rfl, fun h => Bool.noConfusion h.1, ?_⟩
  intro acts s hrun
  obtain ⟨_, h2, h3, _⟩ :=
    readLines_never_returns (exampleCfg 1) (Reader.mk allRejectedInput none) (by decide)
      acts s hrun
  refine ⟨h2, h3, ?_⟩
  obtain ⟨acts', s', e1, e2⟩ := exists_terminal_run (exampleCfg 1) s
  have hrun' : exec (exampleCfg 1) (acts ++ acts')
      (Decode (Reader.mk allRejectedInput none)) = some s' := by
    rw [exec_append, hrun]; exact e1
  exact ⟨acts', s', e1, e2,
    (readLines_never_returns (exampleCfg 1) (Reader.mk allRejectedInput none) (by decide)
      (acts ++ acts') s' hrun').2.2.1⟩

/-- Counterexample to C4 as stated: the decode function rejects only the third
of the four lines, and a run of the scenario ends with both streams closed
having delivered three values, `{a:1}`, `{a:2}` and `{a:3}`, and one error:
not two values. -/
theorem scenario_counterexample :
    (recordsOf scenarioInput).map (rejects scenarioCfg) = [false, false, true, false]
      ∧ exec scenarioCfg scenarioSchedule (Decode (Reader.mk scenarioInput none))
          = some (finalState 2 none [] [1, 2, 3] [0])
      ∧ Terminal scenarioCfg (finalState 2 none [] [1, 2, 3] [0])
      ∧ Closed (finalState 2 none [] [1, 2, 3] [0])
      ∧ (finalState 2 none [] [1, 2, 3] [0]).gotVals.length ≠ 2 :=
  ⟨by decide, rfl, terminal_of_check _ _ rfl, ⟨rfl, rfl⟩, by decide⟩

/-- Claim C4, amended. In the concrete scenario (two workers, the four lines
`{"a":1}`, `{"a":2}`, `{bad`, `{"a":3}`, a decode function rejecting only the
third) every run is finite and can be continued until no step is left, and a
run that cannot be extended has closed both streams after delivering exactly
three values, `{a:1}`, `{a:2}` and `{a:3}` in some order, and exactly one
error. -/
theorem scenario_yields_three_values (acts : List Action) (s : Session Nat Nat)
    (hrun : exec scenarioCfg acts (Decode (Reader.mk scenarioInput none)) = some s) :
    acts.length ≤ 163
      ∧ (∃ acts' s', exec scenarioCfg acts' s = some s' ∧ Terminal scenarioCfg s')
      ∧ (Terminal scenarioCfg s →
          Closed s ∧ s.out = [] ∧ s.errc = []
            ∧ s.gotVals.Perm [1, 2, 3] ∧ s.gotErrs.length = 1) := by
  have hG := Good_of_run scenarioCfg _ acts s hrun
  refine ⟨exec_bound scenarioCfg _ acts s hrun, exists_terminal_run scenarioCfg s, ?_⟩
  intro ht
  obtain ⟨t1, _, _, t4, t5, t6, t7⟩ := terminal_content scenarioCfg _ s hG (by decide) ht
  have e1 : okVals scenarioCfg (recordsOf scenarioInput) = [1, 2, 3] := by decide
  have e2 : errVals scenarioCfg (recordsOf scenarioInput) = [0] := by decide
  have t6' : s.gotVals.Perm (okVals scenarioCfg (recordsOf scenarioInput)) := t6
  have t7' : s.gotErrs.Perm (errVals scenarioCfg (recordsOf scenarioInput) ++ []) := t7
  rw [e1] at t6'
  rw [e2] at t7'
  exact ⟨t1, t4, t5, t6', by rw [t7'.length_eq]; rfl⟩

/-- Witness for C4 (amended): a run of the scenario in which the values arrive
in the order 2, 1, 3. -/
theorem scenario_yields_three_values_witness :
    exec scenarioCfg scenarioSchedule2 (Decode (Reader.mk scenarioInput none))
        = some (finalState 2 none [] [2, 1, 3] [0])
      ∧ Closed (finalState 2 none [] [2, 1, 3] [0])
      ∧ (finalState 2 none [] [2, 1, 3] [0]).out = []
      ∧ (finalState 2 none [] [2, 1, 3] [0]).errc = []
      ∧ (finalState 2 none [] [2, 1, 3] [0]).gotVals.Perm [1, 2, 3]
      ∧ (finalState 2 none [] [2, 1, 3] [0]).gotErrs.length = 1 :=
  ⟨rfl, (scenario_yields_three_values scenarioSchedule2
    (finalState 2 none [] [2, 1, 3] [0]) rfl).2.2 (terminal_of_check _ _ rfl)⟩

/-- Claim C5. For every input that ends with end-of-input, `readLines` returns
(enough fuel is always supplied) having sent the complete lines of the input,
`recordsOf data`, in input order: exactly one line per newline byte of the
input; every line ends with its newline and contains no other newline; the
concatenation of the lines, in the order sent, is the input up to and
including its last newline; and the returned error is `nil`. -/
theorem readLines_sends_one_record_per_newline (E : Type) (data : List Byte) :
    readLines (Reader.mk data (none : Option E)) = some (recordsOf data, none)
      ∧ (recordsOf data).length = data.count nl
      ∧ (∀ r ∈ recordsOf data, ∃ body, r = body ++ [nl] ∧ nl ∉ body)
      ∧ (recordsOf data).flatten = truncateAfterLastNewline data :=
  ⟨readLines_eq data none, recordsOf_length data, recordsOf_shape data,
    recordsOf_flatten data⟩

/-- Witness for C5: on the input `a\n`, `b\n`, `c`, the first line sent is `a`
followed by its newline. -/
theorem readLines_sends_one_record_per_newline_witness :
    ∃ body, [97, 10] = body ++ [nl] ∧ nl ∉ body :=
  (readLines_sends_one_record_per_newline Nat [97, 10, 98, 10, 99]).2.2.1 [97, 10] (by decide)

/-- Claim C6. Trailing-fragment policy. On an input that ends with end-of-input,
`readLines` sends exactly the lines it sends on the input truncated just after
its last newline, and returns `nil` (so no line at all when the input has no
newline: the number of lines is the number of newline bytes); and under every
schedule a `Decode` session on the input goes through the same states (program
points, channels, values and errors received by the consumer) as the session
on the truncated input: the fragment yields no value and no error. -/
theorem trailing_fragment_is_dropped (c : Config V E) (data : List Byte) :
    readLines (Reader.mk data (none : Option E))
        = readLines (Reader.mk (truncateAfterLastNewline data) none)
      ∧ readLines (Reader.mk data (none : Option E)) = some (recordsOf data, none)
      ∧ (recordsOf data).length = data.count nl
      ∧ (recordsOf data).flatten = truncateAfterLastNewline data
      ∧ ∀ acts : List Action,
          (exec c acts (Decode (Reader.mk data none))).map eraseInput
            = (exec c acts (Decode (Reader.mk (truncateAfterLastNewline data) none))).map
                eraseInput := by
  refine ⟨?_, readLines_eq data none, recordsOf_length data, recordsOf_flatten data, ?_⟩
  · rw [readLines_eq, readLines_eq, recordsOf_truncate]
  · intro acts
    obtain ⟨frag, hfrag, hd⟩ := truncate_append_frag data
    have hinit : Decode (V := V) (Reader.mk data (none : Option E))
        = extendInput frag (Decode (Reader.mk (truncateAfterLastNewline data) none)) := by
      simp [Decode, extendInput, withData, readDone, hd]
    rw [hinit, exec_extendInput c frag hfrag]
    cases exec c acts (Decode (Reader.mk (truncateAfterLastNewline data) none)) with
    | none => rfl
    | some s => rfl

/-- Claim C7. A worker stops at its first decode failure. Run on the sequence of
lines that the channel offers it, a worker goroutine (a) when no line is
rejected, calls the factory once per line, sends the decoded values in order
and sends no error; (b) when `bad` is the first rejected line, calls the
factory once per line up to and including `bad`, sends in order the values of
the lines before `bad`, sends the error of `bad` once, and leaves every later
line in the channel. In a session (c) a step of worker `i` leaves every other
worker where it is, and a worker that has left the loop of `decode` touches
neither `lines` nor `out`: it sends its error once, then only returns. -/
theorem worker_stops_at_first_failure (c : Config V E) :
    (∀ (lines : List Line) (vs : List V),
        List.Forall₂ (fun l v => decodeLine c.protofactory c.unmarshaller l = Except.ok v)
          lines vs →
        workerRun c.protofactory c.unmarshaller lines
          = { out := vs, errc := [], calls := lines.length, rest := [] })
      ∧ (∀ (pre : List Line) (bad : Line) (post : List Line) (vs : List V) (e : E),
        List.Forall₂ (fun l v => decodeLine c.protofactory c.unmarshaller l = Except.ok v)
          pre vs →
        decodeLine c.protofactory c.unmarshaller bad = Except.error e →
        workerRun c.protofactory c.unmarshaller (pre ++ bad :: post)
          = { out := vs, errc := [e], calls := pre.length + 1, rest := post })
      ∧ (∀ (s s' : Session V E) (i : Nat), step c (Action.worker i) s = some s' →
        (∀ j, j ≠ i → s'.workers[j]? = s.workers[j]?)
          ∧ (∀ e, s.workers[i]? = some (WorkerPc.sendErr e) →
              s'.workers[i]? = some WorkerPc.exit ∧ s'.errc = s.errc ++ [e]
                ∧ s'.lines = s.lines ∧ s'.out = s.out)
          ∧ (s.workers[i]? = some WorkerPc.exit →
              s'.workers[i]? = some WorkerPc.done ∧ s'.errc = s.errc
                ∧ s'.lines = s.lines ∧ s'.out = s.out)
          ∧ s.workers[i]? ≠ some WorkerPc.done) := by
  refine ⟨?_, ?_, ?_⟩
  · intro lines vs h
    simp [workerRun, decode_all_ok c.protofactory c.unmarshaller lines vs [] 0 h]
  · intro pre bad post vs e h hbad
    simp [workerRun, decode_first_error c.protofactory c.unmarshaller pre bad post vs [] 0 e h hbad]
  · intro s s' i h
    obtain ⟨w, w', hw, hset, h1, h2, h3, h4⟩ := stepWorker_inv c i s s' h
    have hi : i < s.workers.length := by
      by_contra hn
      have : s.workers[i]? = none := by simp; omega
      simp [this] at hw
    refine ⟨?_, ?_, ?_, ?_⟩
    · intro j hj
      rw [hset, List.getElem?_set_ne (Ne.symm hj)]
    · intro e he
      have hwe : w = WorkerPc.sendErr e := by rw [hw] at he; exact Option.some.inj he
      obtain ⟨a1, a2⟩ := h2 e hwe
      obtain ⟨a3, a4⟩ := h1 (by rw [hwe]; rfl)
      refine ⟨?_, a2, a3, a4⟩
      rw [hset, a1]
      simp [hi]
    · intro he
      have hwe : w = WorkerPc.exit := by rw [hw] at he; exact Option.some.inj he
      obtain ⟨a1, a2⟩ := h3 hwe
      obtain ⟨a3, a4⟩ := h1 (by rw [hwe]; rfl)
      refine ⟨?_, a2, a3, a4⟩
      rw [hset, a1]
      simp [hi]
    · intro hd
      rw [hw] at hd
      exact h4 (Option.some.inj hd)

/-- Witness for C7: a worker offered the line `a\n` alone decodes it; a worker
offered the lines `a\n`, `\0\n`, `b\n` decodes the first, reports the error
of the second and leaves the third; and in a session a worker holding the
error 7 sends it and is left to return. -/
theorem worker_stops_at_first_failure_witness :
    workerRun (exampleCfg 1).protofactory (exampleCfg 1).unmarshaller [[97, 10]]
        = { out := [2], errc := [], calls := 1, rest := [] }
      ∧ workerRun (exampleCfg 1).protofactory (exampleCfg 1).unmarshaller
          [[97, 10], [0, 10], [98, 10]]
        = { out := [2], errc := [7], calls := 2, rest := [[98, 10]] }
      ∧ (sentErrState.workers[0]? = some WorkerPc.exit
          ∧ sentErrState.errc = sendErrState.errc ++ [7]
          ∧ sentErrState.lines = sendErrState.lines ∧ sentErrState.out = sendErrState.out) :=
  ⟨(worker_stops_at_first_failure (exampleCfg 1)).1 [[97, 10]] [2]
      (List.Forall₂.cons rfl List.Forall₂.nil),
    (worker_stops_at_first_failure (exampleCfg 1)).2.1 [[97, 10]] [0, 10] [[98, 10]] [2] 7
      (List.Forall₂.cons rfl List.Forall₂.nil) rfl,
    ((worker_stops_at_first_failure (exampleCfg 1)).2.2 sendErrState sentErrState 0 rfl).2.1
      7 rfl⟩

/-- Claim C8, at a failing input (a defect of the code, the one of C3). One
worker, twelve lines, all rejected (decode error 7), then the read error 9.
Run on its own, `readLines` sends the twelve lines and returns the error 9.
In the session the run `runAllRejected` reaches a state in which no step is
enabled, `readLines` being blocked at `lines <- line` before it has read the
end of the input: the error 9 has not been sent and `lines` is not closed.
And this is so in every run on this input: in no reachable state has the
error 9 been sent or received, is `lines` closed, or is a stream closed. -/
theorem read_failure_unreported_after_every_worker_failed :
    readLines (Reader.mk allRejectedInput (some 9))
        = some (List.replicate 12 [0, 10], some 9)
      ∧ exec (exampleCfg 1) runAllRejected (Decode (Reader.mk allRejectedInput (some 9)))
          = some blockedBeforeReadError
      ∧ Terminal (exampleCfg 1) blockedBeforeReadError
      ∧ blockedBeforeReadError.linesClosed = false
      ∧ ¬ Closed blockedBeforeReadError
      ∧ 9 ∉ blockedBeforeReadError.gotErrs ++ blockedBeforeReadError.errc
      ∧ ∀ (acts : List Action) (s : Session Nat Nat),
          exec (exampleCfg 1) acts (Decode (Reader.mk allRejectedInput (some 9))) = some s →
          s.linesClosed = false ∧ ¬ Closed s ∧ 9 ∉ s.gotErrs ++ s.errc := by
  refine ⟨by decide, rfl, terminal_of_check _ _ rfl, rfl, fun h => Bool.noConfusion h.1,
    by decide, ?_⟩
  intro acts s hrun
  obtain ⟨_, h2, h3, h4⟩ :=
    readLines_never_returns (exampleCfg 1) (Reader.mk allRejectedInput (some 9)) (by decide)
      acts s hrun
  refine ⟨h2, h3, ?_⟩
  intro hmem
  have hm : (9 : Nat) ∈ Multiset.ofList (s.gotErrs ++ s.errc) := Multiset.mem_coe.mpr hmem
  have hm' := Multiset.mem_of_le h4 hm
  have hv : errVals (exampleCfg 1) (recordsOf allRejectedInput) = List.replicate 12 7 := by
    decide
  have hv' : (9 : Nat) ∈ errVals (exampleCfg 1) (recordsOf allRejectedInput) :=
    Multiset.mem_coe.mp hm'
  rw [hv] at hv'
  exact absurd hv' (by decide)

/-- Claim C9. Error-queue bound, for every worker count (zero included), every
finite input and every decode function: in every reachable state the number
of errors ever sent on the error stream (buffered or received) is at most
`n + 1`, so the buffer of `errc` never exceeds its capacity, and a worker or
the coordinator that is at its send on `errc` can always take that step,
whatever the consumer has or has not received. -/
theorem error_queue_bound (c : Config V E) (r : Reader E)
    (acts : List Action) (s : Session V E)
    (hrun : exec c acts (Decode r) = some s) :
    errorsSent s ≤ c.n + 1
      ∧ s.errc.length ≤ c.n + 1
      ∧ (∀ i e, s.workers[i]? = some (WorkerPc.sendErr e) →
          ∃ s', step c (Action.worker i) s = some s' ∧ s'.errc = s.errc ++ [e])
      ∧ (∀ e, s.coord = CoordPc.sendErr e →
          ∃ s', step c Action.coord s = some s' ∧ s'.errc = s.errc ++ [e]) := by
  have hG := Good_of_run c r acts s hrun
  have hI := hG.inv
  have hb := hI.budget
  have hs := hI.spawned
  refine ⟨by omega, by simp only [errorsSent] at hb; omega, ?_, ?_⟩
  · intro i e hw
    have hle := le_sum_of_getElem? errBudget s.workers i _ hw
    simp only [errBudget] at hle
    obtain ⟨h1, h2⟩ := errc_not_full c s hI (by omega)
    exact ⟨{ s with errc := s.errc ++ [e], workers := s.workers.set i WorkerPc.exit },
      by simp [step, stepWorker, hw, h1, h2], rfl⟩
  · intro e hpc
    obtain ⟨h1, h2⟩ := errc_not_full c s hI (by simp [hpc])
    exact ⟨{ s with errc := s.errc ++ [e], coord := CoordPc.closeLines },
      by simp [step, stepCoord, hpc, h1, h2], rfl⟩

/-- Witness for C9: one worker, so `errc` has capacity 2; the worker about to
send its error can send it, although the consumer has received nothing. -/
theorem error_queue_bound_witness :
    exec (exampleCfg 1) runToSendErr (Decode (Reader.mk [0, 10, 98] (some 9)))
        = some sendErrState
      ∧ ∃ s', step (exampleCfg 1) (Action.worker 0) sendErrState = some s'
        ∧ s'.errc = sendErrState.errc ++ [7] :=
  ⟨rfl, (error_queue_bound (exampleCfg 1) (Reader.mk [0, 10, 98] (some 9)) runToSendErr
    sendErrState rfl).2.2.1 0 7 rfl⟩

/-- Claim C10. Surviving-worker guarantee. When the decode function rejects
fewer lines of the input than there are workers (so `n ≥ 1`) and the input
ends with end-of-input, every run is finite and can be continued until no step
is left, and a run that cannot be extended has closed both streams after
delivering exactly `k - f` values and exactly `f` errors, where `k` is the
number of newline-terminated lines and `f` the number of rejected ones; no
line is left in the work queue. -/
theorem surviving_worker_guarantee (c : Config V E) (data : List Byte)
    (hF : rejectedCount c data < c.n)
    (acts : List Action) (s : Session V E)
    (hrun : exec c acts (Decode (Reader.mk data none)) = some s) :
    acts.length ≤ 12 + 3 * c.n + 5 * data.length
      ∧ (∃ acts' s', exec c acts' s = some s' ∧ Terminal c s')
      ∧ (Terminal c s →
          Closed s ∧ s.lines = [] ∧ s.out = [] ∧ s.errc = []
            ∧ s.gotVals.length = data.count nl - rejectedCount c data
            ∧ s.gotErrs.length = rejectedCount c data) := by
  have hG := Good_of_run c _ acts s hrun
  have hcount := okVals_count c data
  refine ⟨exec_bound c _ acts s hrun, exists_terminal_run c s, ?_⟩
  intro ht
  obtain ⟨t1, _, t3, t4, t5, t6, t7⟩ := terminal_content c _ s hG hF ht
  have t6' : s.gotVals.Perm (okVals c (recordsOf data)) := t6
  have t7' : s.gotErrs.Perm (errVals c (recordsOf data) ++ []) := t7
  refine ⟨t1, t3, t4, t5, ?_, ?_⟩
  · rw [t6'.length_eq]; omega
  · rw [t7'.length_eq]
    simp [errVals_length, rejectedCount]

/-- Witness for C10: two workers, two lines of which one is rejected: the
complete run delivers one value and one error. -/
theorem surviving_worker_guarantee_witness :
    exec (exampleCfg 2) runOneRejected (Decode (Reader.mk [0, 10, 97, 10] none))
        = some (finalState 2 none [] [2] [7])
      ∧ Closed (finalState 2 none [] [2] [7]) ∧ (finalState 2 none [] [2] [7]).lines = []
      ∧ (finalState 2 none [] [2] [7]).out = [] ∧ (finalState 2 none [] [2] [7]).errc = []
      ∧ (finalState 2 none [] [2] [7]).gotVals.length
          = List.count nl [0, 10, 97, 10] - rejectedCount (exampleCfg 2) [0, 10, 97, 10]
      ∧ (finalState 2 none [] [2] [7]).gotErrs.length
          = rejectedCount (exampleCfg 2) [0, 10, 97, 10] :=
  ⟨rfl, (surviving_worker_guarantee (exampleCfg 2) [0, 10, 97, 10] (by decide) runOneRejected
    (finalState 2 none [] [2] [7]) rfl).2.2 (terminal_of_check _ _ rfl)⟩

end Parajson
